import Mathlib

/-!
Verification of the karaoke subtitle timing engine of the ktv-karaoke-tool
repository.  The Python sources (subtitles.py, fix_ass_with_lyrics.py) are
shallowly embedded: Python strings become lists of characters, Python floats
(only ever carrying timestamp arithmetic) become rationals, Python ints become
Nat/Int with the source's clamping made explicit, and the fallible parts return
Option/Except.  Every definition mirrors a concrete function or code block of
the source; claim-shaped comparison definitions are marked as such.
-/

/-- Python strings are modelled as lists of characters. -/
abbrev Str := List Char

/-- The left brace character, written via its code point. -/
def lbrace : Char := Char.ofNat 123

/-- The right brace character, written via its code point. -/
def rbrace : Char := Char.ofNat 125

/-- The whitespace set of Python's str.strip with no argument
(space, tab, newline, carriage return, vertical tab, form feed). -/
def isPySpace (c : Char) : Bool :=
  c = ' ' || c = '\t' || c = '\n' || c = '\r' || c = '\x0b' || c = '\x0c'

/-- Python str.lstrip(): drop leading whitespace. -/
def pyLStrip (s : Str) : Str := s.dropWhile isPySpace

/-- Python str.rstrip(): drop trailing whitespace. -/
def pyRStrip (s : Str) : Str := (pyLStrip s.reverse).reverse

/-- Python str.strip(): drop whitespace on both ends. -/
def pyStrip (s : Str) : Str := pyRStrip (pyLStrip s)

/-- Python str.startswith on character lists. -/
def startsWith : Str → Str → Bool
  | [], _ => true
  | _ :: _, [] => false
  | p :: ps, c :: cs => p = c && startsWith ps cs

/-- Split a string at the first occurrence of a separator character, if any.
Returns the part before the separator and the part after it. -/
def splitFirst (sep : Char) : Str → Option (Str × Str)
  | [] => none
  | c :: rest =>
    if c = sep then some ([], rest)
    else (splitFirst sep rest).map fun p => (c :: p.1, p.2)

/-- Python s.split(sep, maxsplit): bounded split.  With bound 0 the whole
string is one piece; otherwise split off the part before the first separator
and recurse with one fewer allowed split. -/
def pySplitBounded (sep : Char) : Nat → Str → List Str
  | 0, s => [s]
  | b + 1, s =>
    match splitFirst sep s with
    | none => [s]
    | some (a, rest) => a :: pySplitBounded sep b rest

/-- Python s.split(sep): unbounded split (the string's length bounds the
number of possible splits). -/
def pySplitAll (sep : Char) (s : Str) : List Str :=
  pySplitBounded sep s.length s

/-- Join a list of strings with a separator character (Python sep.join). -/
def joinSep (sep : Char) : List Str → Str
  | [] => []
  | [x] => x
  | x :: y :: rest => x ++ sep :: joinSep sep (y :: rest)

/-- Count occurrences of a character in a string. -/
def countC (sep : Char) : Str → Nat
  | [] => 0
  | c :: rest => (if c = sep then 1 else 0) + countC sep rest

/-- Numeric value of a decimal digit character. -/
def digitVal (c : Char) : Nat := c.toNat - 48

/-- Value of a string of decimal digits. -/
def natOfDigits (s : Str) : Nat := s.foldl (fun a c => 10 * a + digitVal c) 0

/-- Python int() on the unsigned decimal components the timestamp format
uses: surrounding whitespace is tolerated, the digit run must be non-empty,
anything else fails (a ValueError in the source). -/
def pyParseNat (s : Str) : Option Nat :=
  let t := pyStrip s
  if t ≠ [] ∧ t.all Char.isDigit then some (natOfDigits t) else none

/-- Floor of a rational as an integer, computed from the normalized
numerator and denominator.  The division on ℤ is Euclidean division, which
for the positive denominator is exactly floor division. -/
def qfloor (q : ℚ) : ℤ := q.num / q.den

/-- Python int() applied to a number: truncation toward zero. -/
def qtrunc (q : ℚ) : ℤ := q.num.tdiv q.den

/-- Python round() to an integer: round half to even. -/
def pyRound (q : ℚ) : ℤ :=
  if q - qfloor q < 1 / 2 then qfloor q
  else if 1 / 2 < q - qfloor q then qfloor q + 1
  else if qfloor q % 2 = 0 then qfloor q else qfloor q + 1

/-- seconds_to_centisecs from fix_ass_with_lyrics.py:
max(1, int(round(sec * 100))).  The source returns a Python int that is
always at least 1, so the model returns a Nat. -/
def seconds_to_centisecs (sec : ℚ) : Nat := (max 1 (pyRound (sec * 100))).toNat

/-- ass_time_to_seconds from fix_ass_with_lyrics.py: parse "H:MM:SS.cc"
into seconds.  The source raises ValueError on any malformed input
(wrong field counts or non-numeric components); the model returns none. -/
def ass_time_to_seconds (t : Str) : Option ℚ :=
  match pySplitAll '.' t with
  | [hms, cs] =>
    match pySplitAll ':' hms with
    | [h, m, s] =>
      match pyParseNat h, pyParseNat m, pyParseNat s, pyParseNat cs with
      | some hn, some mn, some sn, some cn =>
        some ((hn : ℚ) * 3600 + (mn : ℚ) * 60 + (sn : ℚ) + (cn : ℚ) / 100)
      | _, _, _, _ => none
    | _ => none
  | _ => none

/-!
The inline duration-tag scanner.  fix_ass_with_lyrics.py finds every
non-overlapping, leftmost match of the tag pattern (an opening brace, a
backslash, the letter k, digits, a closing brace; regex
finditer / findall) and, for parse_k_blocks, pairs each tag value with the
run of plain characters between it and the next tag (or the end of text).
-/

/-- Try to match a duration tag at the very start of the string:
an opening brace, a backslash, the letter k, a non-empty maximal run of
decimal digits, and a closing brace.  On success return the tag's value and
the remainder of the string after the closing brace. -/
def matchKTag : Str → Option (Nat × Str)
  | c1 :: c2 :: c3 :: rest =>
    if c1 = lbrace ∧ c2 = '\\' ∧ c3 = 'k' then
      let ds := rest.takeWhile Char.isDigit
      if ds = [] then none
      else
        match rest.dropWhile Char.isDigit with
        | c :: rest2 => if c = rbrace then some (natOfDigits ds, rest2) else none
        | [] => none
    else none
  | _ => none

/-- Scan left to right for the first duration tag.  Returns the plain text
before the tag and, when a tag is found, its value and the text after it.
A position where the tag pattern fails to match advances by one character,
exactly like the regex engine's leftmost-match search. -/
def splitAtNextTag : Str → Str × Option (Nat × Str)
  | [] => ([], none)
  | c :: rest =>
    match matchKTag (c :: rest) with
    | some p => ([], some p)
    | none =>
      let q := splitAtNextTag rest
      (c :: q.1, q.2)

/-- The tag/run decomposition loop of parse_k_blocks: given the value of the
tag just consumed and the remaining text, pair that value with the run of
characters up to the next tag and continue.  Each found tag strictly shortens
the remaining text, so a fuel of the text's length makes the fuel-exhaustion
branch unreachable (it is present only to keep the recursion structural,
which lets concrete inputs evaluate inside the kernel). -/
def kBlocksGo : Nat → Nat → Str → List (Nat × Str)
  | 0, d, rest => [(d, rest)]
  | fuel + 1, d, rest =>
    match splitAtNextTag rest with
    | (seg, none) => [(d, seg)]
    | (seg, some (d2, rest2)) => (d, seg) :: kBlocksGo fuel d2 rest2

/-- All (tag value, following run) pairs of a tagged text, in order: the
finditer loop of parse_k_blocks before any per-character expansion.  Text
before the first tag is ignored, runs may be empty, and the list of first
components is exactly what re.findall would hand extract_total_k. -/
def kBlocks (s : Str) : List (Nat × Str) :=
  match splitAtNextTag s with
  | (_, none) => []
  | (_, some (d, rest)) => kBlocksGo rest.length d rest

/-- extract_total_k from fix_ass_with_lyrics.py: sum all inline tag values;
with no tags, or a non-positive sum, return the fallback. -/
def extract_total_k (text : Str) (fallback_cs : Nat) : Nat :=
  let ks := (kBlocks text).map Prod.fst
  if ks = [] then fallback_cs
  else if 0 < ks.sum then ks.sum else fallback_cs

/-- The inlined redistribution pattern shared by parse_k_blocks,
build_kara_from_lyrics and build_karaoke_text: divide a total over n units
with integer division, all remainder to the final unit, every unit floored
to at least 1 (per = max(1, total // n); last = max(1, total - per * (n-1))).
The one-unit case carries the whole total, and zero units yield nothing. -/
def redistribute (total_cs : Nat) (n : Nat) : List Nat :=
  if n = 0 then []
  else if n = 1 then [total_cs]
  else
    let per := max 1 (total_cs / n)
    let used := per * (n - 1)
    let last := max 1 (total_cs - used)
    List.replicate (n - 1) per ++ [last]

/-- One block of parse_k_blocks: a tag value paired with its run of
characters.  An empty run contributes nothing (the tag is dropped); a
one-character run receives max(1, duration); a longer run receives the
redistributed durations (per-character integer division, remainder to the
last character, both floored at 1), positionally zipped onto the run. -/
def expandBlock (dur : Nat) (seg : Str) : List (Nat × Char) :=
  match seg with
  | [] => []
  | [c] => [(max 1 dur, c)]
  | _ :: _ :: _ => (redistribute dur seg.length).zip seg

/-- Concatenate the expansions of all blocks (the outer for-loop of
parse_k_blocks). -/
def expandAll : List (Nat × Str) → List (Nat × Char)
  | [] => []
  | b :: bs => expandBlock b.1 b.2 ++ expandAll bs

/-- parse_k_blocks from fix_ass_with_lyrics.py.  The source returns the two
parallel lists (durations, chars); the model returns their zip, one
(duration, character) pair per exploded character. -/
def parse_k_blocks (text : Str) : List (Nat × Char) :=
  expandAll (kBlocks text)

/-!
Karaoke text builders.  build_kara_from_lyrics (fix_ass_with_lyrics.py) and
build_karaoke_text (inside SubtitleGenerator.generate_ass, subtitles.py) both
assemble a list of parts, each part being the f-string rendering of one
(duration, character) pair, and join them.  The models build the pair list
and render it, exactly mirroring the parts list of the source.
-/

/-- The tag markup for one duration: an opening brace, a backslash, the
letter k, the decimal digits of the duration, and a closing brace. -/
def ktag (d : Nat) : Str := lbrace :: '\\' :: 'k' :: Nat.toDigits 10 d ++ [rbrace]

/-- One appended part: the tag followed by its single character. -/
def kpart (d : Nat) (c : Char) : Str := ktag d ++ [c]

/-- The final join of the parts list. -/
def renderParts : List (Nat × Char) → Str
  | [] => []
  | p :: ps => kpart p.1 p.2 ++ renderParts ps

/-- The (duration, character) pair list assembled by build_kara_from_lyrics:
strip the new line; if it is empty, nothing.  If the original text explodes
to a non-empty per-character list of exactly the new line's length, reuse
those durations positionally (each re-clamped with max 1, as in the source).
Otherwise redistribute the exploded total (or the fallback when there were
no tags), floored at 1, over the new characters. -/
def buildKaraParts (new_line orig_text : Str) (fallback_cs : Nat) : List (Nat × Char) :=
  let nl := pyStrip new_line
  if nl = [] then []
  else
    let prs := parse_k_blocks orig_text
    if prs ≠ [] ∧ prs.length = nl.length then
      ((prs.map Prod.fst).zip nl).map fun p => (max 1 p.1, p.2)
    else
      let total0 := if prs = [] then fallback_cs else (prs.map Prod.fst).sum
      (redistribute (max 1 total0) nl.length).zip nl

/-- build_kara_from_lyrics from fix_ass_with_lyrics.py: the rendered parts. -/
def build_kara_from_lyrics (new_line orig_text : Str) (fallback_cs : Nat) : Str :=
  renderParts (buildKaraParts new_line orig_text fallback_cs)

/-- A word-level timestamp entry handed over by the transcription
collaborator: the dict with keys "start", "end" and the word's text. -/
structure Word where
  start : ℚ
  endT : ℚ
  text : Str
deriving DecidableEq

/-- The per-word centisecond duration summed by build_karaoke_text:
max(1, int((w.end - w.start) * 100)), with Python int() truncating. -/
def wordDurCs (w : Word) : Nat := (max 1 (qtrunc ((w.endT - w.start) * 100))).toNat

/-- The (duration, character) pair list assembled by build_karaoke_text
(subtitles.py): strip the fallback text; if empty, nothing.  Sum the word
durations; if the sum is zero (in particular when there are no words), use
30 centiseconds per character instead.  Then redistribute the total over
the characters of the stripped text. -/
def buildKaraokeParts (words : List Word) (fallback_text : Str) : List (Nat × Char) :=
  let text := pyStrip fallback_text
  if text = [] then []
  else
    let total0 := (words.map wordDurCs).sum
    let total_cs := if total0 = 0 then 30 * text.length else total0
    (redistribute total_cs text.length).zip text

/-- build_karaoke_text from subtitles.py: the rendered parts. -/
def build_karaoke_text (words : List Word) (fallback_text : Str) : Str :=
  renderParts (buildKaraokeParts words fallback_text)

/-- Claim-shaped comparison definition (not from the source): the
word-granularity builder as the specification describes it, one duration
tag per word, the i-th tag carrying seconds_to_centisecs of the word's
span and immediately followed by that word's text, concatenated in order. -/
def buildFromWordsClaim : List Word → Str
  | [] => []
  | w :: ws => ktag (seconds_to_centisecs (w.endT - w.start)) ++ w.text ++ buildFromWordsClaim ws

/-!
The dual-track layout engine's preview pass (subtitles.py,
SubtitleGenerator.generate_ass, second event loop): for every adjacent pair
of segments, one untagged preview event for the upcoming segment, spanning
from the current segment's start to the later of the current segment's end
and the next segment's start, skipped when the next text strips to empty or
the span is not positive.
-/

/-- A transcription segment: the dict with keys "start", "end", "text" and
the optional word list. -/
structure Seg where
  start : ℚ
  endT : ℚ
  text : Str
  words : List Word
deriving DecidableEq

instance : Inhabited Seg := ⟨⟨0, 0, [], []⟩⟩

/-- A preview event as written by the preview loop, before timestamp
formatting: its span, its style name and its plain (stripped) text. -/
structure PrevEvent where
  pstart : ℚ
  pend : ℚ
  style : Str
  ptext : Str
deriving DecidableEq

/-- Style selection of the preview loop: NextLeft when the upcoming
segment's index is even, NextRight when odd. -/
def styleNext (j : Nat) : Str :=
  if j % 2 = 0 then "NextLeft".toList else "NextRight".toList

/-- The body of the preview loop for index i: segments i and i+1 are read,
the span is [curr.start, max(curr.end, next.start)], the text is the next
segment's stripped text, and emission is skipped (none) when the text is
empty or the span is not positive. -/
def emitPreview (segments : List Seg) (i : Nat) : Option PrevEvent :=
  let curr := segments.getD i default
  let nxt := segments.getD (i + 1) default
  let pstart := curr.start
  let pend := max curr.endT nxt.start
  let t := pyStrip nxt.text
  if t = [] ∨ pend ≤ pstart then none
  else some ⟨pstart, pend, styleNext (i + 1), t⟩

/-- The preview loop of generate_ass: for i in range(len(segments) - 1),
emit the preview event for the pair (i, i+1) when not skipped, in order. -/
def previewEvents (segments : List Seg) : List PrevEvent :=
  (List.range (segments.length - 1)).filterMap (emitPreview segments)

/-- Claim-shaped comparison definition (not from the source): what the
specification says the i-th adjacent pair contributes, phrased with
bounds-checked indexing: exactly one preview event carrying segment i+1's
plain text over span [segment i start, max(segment i end, segment i+1
start)] with style parity i+1, and nothing when the next text is empty or
the computed span is zero or negative. -/
def previewSpecAt (segments : List Seg) (i : Nat) : Option PrevEvent :=
  if h : i + 1 < segments.length then
    let a := segments.get ⟨i, Nat.lt_of_succ_lt h⟩
    let b := segments.get ⟨i + 1, h⟩
    if pyStrip b.text = [] ∨ max a.endT b.start ≤ a.start then none
    else some ⟨a.start, max a.endT b.start, styleNext (i + 1), pyStrip b.text⟩
  else none

/-!
The record codec of fix_ass_with_lyrics.py: split_dialogue_fields and
rebuild_dialogue.
-/

/-- The parsed Dialogue record: the record-type part before the first colon
(dict key "prefix", called pfx here because of Lean keyword limits) and the
ten comma-delimited fields, of which the last ("text") may itself contain
commas.  The field "end" is called endT for the same reason. -/
structure DlgRec where
  pfx : Str
  layer : Str
  start : Str
  endT : Str
  style : Str
  name : Str
  marginL : Str
  marginR : Str
  marginV : Str
  effect : Str
  text : Str
deriving DecidableEq

/-- The ten fields of a record in serialization order. -/
def fieldsOf (d : DlgRec) : List Str :=
  [d.layer, d.start, d.endT, d.style, d.name, d.marginL, d.marginR, d.marginV, d.effect, d.text]

/-- Pad a short field list with empty strings up to ten entries
(the while-loop of split_dialogue_fields). -/
def padTo10 (l : List Str) : List Str := l ++ List.replicate (10 - l.length) []

/-- Assemble a record from the record-type part and a padded field list. -/
def mkRec (pfx : Str) (ps : List Str) : DlgRec :=
  ⟨pfx, ps.getD 0 [], ps.getD 1 [], ps.getD 2 [], ps.getD 3 [], ps.getD 4 [],
   ps.getD 5 [], ps.getD 6 [], ps.getD 7 [], ps.getD 8 [], ps.getD 9 []⟩

/-- split_dialogue_fields from fix_ass_with_lyrics.py:
line.split(":", 1), then rest.strip().split(",", 9), then pad to ten
fields.  A line with no colon makes the source's tuple unpacking raise;
the model returns none there. -/
def split_dialogue_fields (line : Str) : Option DlgRec :=
  match splitFirst ':' line with
  | none => none
  | some (pfx, rest) => some (mkRec pfx (padTo10 (pySplitBounded ',' 9 (pyStrip rest))))

/-- rebuild_dialogue from fix_ass_with_lyrics.py: the record-type part, a
colon and a space, then the ten fields joined with commas. -/
def rebuild_dialogue (d : DlgRec) : Str :=
  d.pfx ++ ':' :: ' ' :: joinSep ',' (fieldsOf d)

/-- Well-formedness used by the serialize-parse-serialize round-trip law:
the record-type part contains no colon, and the joined field list carries
no leading or trailing whitespace (otherwise the parser's strip would
normalize the line). -/
def wellFormedRec (r : DlgRec) : Prop :=
  ':' ∉ r.pfx ∧
  pyLStrip (joinSep ',' (fieldsOf r)) = joinSep ',' (fieldsOf r) ∧
  pyRStrip (joinSep ',' (fieldsOf r)) = joinSep ',' (fieldsOf r)

/-- Absence of embedded delimiter anomalies, used by the parse-serialize
round-trip law: well-formed, and no comma in any of the first nine fields
(the text field may contain commas). -/
def noDelimAnomalies (r : DlgRec) : Prop :=
  wellFormedRec r ∧ ∀ f ∈ (fieldsOf r).take 9, ',' ∉ f

instance : DecidablePred wellFormedRec := fun r => by
  unfold wellFormedRec; infer_instance

instance : DecidablePred noDelimAnomalies := fun r => by
  unfold noDelimAnomalies; infer_instance

/-- Claim-shaped helper (not from the source): everything after the n-th
delimiter of a string, kept verbatim; the string itself when fewer than n
delimiters exist. -/
def afterDelims (sep : Char) : Nat → Str → Str
  | 0, s => s
  | n + 1, s =>
    match splitFirst sep s with
    | none => s
    | some (_, rest) => afterDelims sep n rest

/-!
The main pass of fix_ass_with_lyrics.py, as a pure function from the list
of document lines and the list of raw lyric lines to the rewritten lines
plus the printed diagnostics, or an error where the source raises.
-/

/-- The diagnostics the main pass prints. -/
inductive Diag where
  /-- No Dialogue text contains a duration tag: the warning that the file
  is probably not the tool's KTV format; the document is left unmodified. -/
  | noSing : Diag
  /-- The lyric line count and the tagged-line count differ: the warning
  stating both counts; only the overlapping prefix is rewritten. -/
  | mismatch (nLyr nSing : Nat) : Diag
deriving DecidableEq

/-- The failures the main pass can raise. -/
inductive FixErr where
  /-- The lyrics file holds no non-blank line (a ValueError in the source). -/
  | emptyLyrics : FixErr
  /-- ass_time_to_seconds raised on a malformed Start or End field. -/
  | badTime : FixErr
deriving DecidableEq

/-- The lyric reader: one entry per non-blank line, stripped. -/
def procLyrics (raw : List Str) : List Str :=
  (raw.map pyStrip).filter fun l => l ≠ []

/-- A line is a Dialogue line when its lstrip starts with the keyword
(line.lstrip().startswith("Dialogue:")). -/
def isDialogueLine (l : Str) : Bool := startsWith "Dialogue:".toList (pyLStrip l)

/-- Substring test for the two characters backslash-k
(the Python expression: raw string backslash-k in d["text"]). -/
def hasK : Str → Bool
  | '\\' :: 'k' :: _ => true
  | _ :: rest => hasK rest
  | [] => false

/-- The enumerate loop collecting every Dialogue line with its index.  A
Dialogue line always contains a colon, so the parse in the body always
succeeds; the impossible none branch skips the line. -/
def docDialoguesFrom (i : Nat) : List Str → List (Nat × DlgRec)
  | [] => []
  | l :: rest =>
    (if isDialogueLine l then
      match split_dialogue_fields l with
      | some d => [(i, d)]
      | none => []
    else []) ++ docDialoguesFrom (i + 1) rest

/-- All Dialogue records of the document, with their line indices. -/
def docDialogues (assLines : List Str) : List (Nat × DlgRec) :=
  docDialoguesFrom 0 assLines

/-- The Dialogue records whose text contains a duration tag marker
(the singing lines). -/
def singDialogues (assLines : List Str) : List (Nat × DlgRec) :=
  (docDialogues assLines).filter fun p => hasK p.2.text

/-- The Dialogue records without a duration tag marker (the preview lines). -/
def previewDialogues (assLines : List Str) : List (Nat × DlgRec) :=
  (docDialogues assLines).filter fun p => !hasK p.2.text

/-- One iteration of the rewrite loop: parse the record's Start and End
times, compute the fallback from their difference, take the tagged total
(or the fallback), and rebuild the text from the paired lyric line. -/
def retagOne (q : (Nat × DlgRec) × Str) : Except FixErr (Nat × DlgRec) :=
  match ass_time_to_seconds q.1.2.start, ass_time_to_seconds q.1.2.endT with
  | some s, some e =>
    let fb := seconds_to_centisecs (e - s)
    let total := extract_total_k q.1.2.text fb
    .ok (q.1.1, { q.1.2 with text := build_kara_from_lyrics q.2 q.1.2.text total })
  | _, _ => .error .badTime

/-- Indexed lookup used to put the updated records back into the line list
(the source mutates shared dicts in place and then rewrites
lines[d["index"]]). -/
def lookupIdx (k : Nat) : List (Nat × DlgRec) → Option DlgRec
  | [] => none
  | (i, d) :: rest => if i = k then some d else lookupIdx k rest

/-- The final write-back loop: every line whose index carries an updated
record is replaced by its rebuilt Dialogue line plus a newline; every other
line is written back as read. -/
def patchLinesFrom (updated : List (Nat × DlgRec)) (i : Nat) : List Str → List Str
  | [] => []
  | l :: rest =>
    (match lookupIdx i updated with
     | some d => rebuild_dialogue d ++ ['\n']
     | none => l) :: patchLinesFrom updated (i + 1) rest

/-- The preview rewrite of the main pass: preview line i is given lyric
line i+1 as its new text (the zip with the tail realizes the source's
max_preview = min(len(preview), n_lyr - 1) bound). -/
def newPreviews (assLines : List Str) (rawLyrics : List Str) : List (Nat × DlgRec) :=
  ((previewDialogues assLines).zip (procLyrics rawLyrics).tail).map fun q =>
    (q.1.1, { q.1.2 with text := q.2 })

/-- All records of the document after the main pass's in-place mutations,
keyed by line index: the retagged singing prefix, the unpaired singing
suffix, the rewritten preview prefix and the unpaired preview suffix. -/
def updatedRecs (assLines : List Str) (rawLyrics : List Str)
    (newSing : List (Nat × DlgRec)) : List (Nat × DlgRec) :=
  newSing ++
    (singDialogues assLines).drop
      (min (singDialogues assLines).length (procLyrics rawLyrics).length) ++
    newPreviews assLines rawLyrics ++
    (previewDialogues assLines).drop
      (min (previewDialogues assLines).length ((procLyrics rawLyrics).length - 1))

/-- The main pass of fix_ass_with_lyrics.py on in-memory lines: read the
lyrics (error when empty), split the Dialogue lines into singing and
preview sets, stop with only a warning when no singing line exists, warn
when the counts differ, rewrite the paired prefix of the singing lines,
rewrite the preview lines to show the following lyric, and write every
record back at its original index. -/
def fixAss (assLines : List Str) (rawLyrics : List Str) :
    Except FixErr (List Str × List Diag) :=
  let lyrics := procLyrics rawLyrics
  if lyrics = [] then .error .emptyLyrics
  else
    let sing := singDialogues assLines
    if sing = [] then .ok (assLines, [.noSing])
    else
      let diags := if lyrics.length ≠ sing.length then
        [Diag.mismatch lyrics.length sing.length] else []
      match (sing.zip lyrics).mapM retagOne with
      | .error e => .error e
      | .ok newSing =>
        .ok (patchLinesFrom (updatedRecs assLines rawLyrics newSing) 0 assLines, diags)

theorem length_dropWhile_le (p : Char → Bool) (l : List Char) :
    (l.dropWhile p).length ≤ l.length := by
  induction l with
  | nil => simp
  | cons c t ih =>
    by_cases hc : p c <;> simp [List.dropWhile_cons, hc] <;> omega

theorem matchKTag_length {s : Str} {d : Nat} {after : Str}
    (h : matchKTag s = some (d, after)) : after.length < s.length := by
  match s with
  | [] => simp [matchKTag] at h
  | [c1] => simp [matchKTag] at h
  | [c1, c2] => simp [matchKTag] at h
  | c1 :: c2 :: c3 :: rest =>
    simp only [matchKTag] at h
    split at h
    · split at h
      · simp at h
      · split at h
        · rename_i c rest2 heq
          split at h
          · have h2 : rest2 = after := by
              have h' := h
              simp only [Option.some.injEq, Prod.mk.injEq] at h'
              exact h'.2
            have hlen : (rest.dropWhile Char.isDigit).length ≤ rest.length :=
              length_dropWhile_le _ _
            rw [heq] at hlen
            simp only [List.length_cons] at hlen
            subst h2
            simp only [List.length_cons]
            omega
          · simp at h
        · simp at h
    · simp at h

theorem splitAtNextTag_length {s pre : Str} {d : Nat} {rest : Str}
    (h : splitAtNextTag s = (pre, some (d, rest))) : rest.length < s.length := by
  induction s generalizing pre with
  | nil => simp [splitAtNextTag] at h
  | cons c t ih =>
    rw [splitAtNextTag] at h
    split at h
    · rename_i p hm
      have h1 : p = (d, rest) := by
        have := congrArg Prod.snd h
        simpa using this
      subst h1
      exact matchKTag_length hm
    · have h2 : (splitAtNextTag t).2 = some (d, rest) := by
        have := congrArg Prod.snd h
        simpa using this
      have h3 : splitAtNextTag t = ((splitAtNextTag t).1, some (d, rest)) := by
        rw [← h2]
      have := ih h3
      simp only [List.length_cons]
      omega

/-! Helper lemmas about the redistribution pattern. -/

theorem redistribute_length (t n : Nat) : (redistribute t n).length = n := by
  unfold redistribute
  split
  · simp_all
  · split
    · simp_all
    · simp only [List.length_append, List.length_replicate, List.length_cons,
        List.length_nil]
      omega

theorem redistribute_sum {t n : Nat} (ht : 1 ≤ t) (hn : 1 ≤ n) :
    (redistribute t n).sum = max t n := by
  unfold redistribute
  rcases Nat.lt_or_ge n 2 with h2 | h2
  · have hn1 : n = 1 := by omega
    subst hn1
    simp
    omega
  · have hn0 : ¬n = 0 := by omega
    have hn1 : ¬n = 1 := by omega
    simp only [hn0, hn1, if_false]
    rcases Nat.lt_or_ge t n with hlt | hge
    · have hq : t / n = 0 := Nat.div_eq_of_lt hlt
      simp only [hq, List.sum_append, List.sum_replicate, smul_eq_mul,
        List.sum_cons, List.sum_nil]
      have hmax : max 1 0 = 1 := rfl
      rw [hmax]
      have h1 : 1 * (n - 1) = n - 1 := one_mul _
      rw [h1]
      omega
    · have hq1 : 1 ≤ t / n := (Nat.one_le_div_iff (by omega)).mpr hge
      have hqn : t / n * n ≤ t := Nat.div_mul_le_self t n
      have hper : max 1 (t / n) = t / n := by omega
      simp only [hper, List.sum_append, List.sum_replicate, smul_eq_mul,
        List.sum_cons, List.sum_nil]
      have hsub : (n - 1) * (t / n) = n * (t / n) - t / n := Nat.sub_one_mul _ _
      have hle : n * (t / n) ≤ t := by rw [mul_comm]; exact hqn
      have hq2 : t / n ≤ n * (t / n) := Nat.le_mul_of_pos_left _ (by omega)
      have hcomm : t / n * (n - 1) = (n - 1) * (t / n) := mul_comm _ _
      omega

theorem redistribute_mem {t n : Nat} (h : 1 ≤ t ∨ 2 ≤ n) :
    ∀ x ∈ redistribute t n, 1 ≤ x := by
  intro x hx
  unfold redistribute at hx
  split at hx
  · simp at hx
  · rename_i hn0
    split at hx
    · rename_i hn1
      simp at hx
      rcases h with h | h
      · omega
      · omega
    · simp only [List.mem_append, List.mem_replicate, List.mem_cons,
        List.not_mem_nil, or_false] at hx
      rcases hx with ⟨-, rfl⟩ | rfl
      · omega
      · omega

/-- C4: for every total at least 1 and every unit count n at least 1, the
redistribution used by the builders (integer division per unit, remainder
to the final unit, every unit floored at 1) yields exactly n integers,
each at least 1, summing to max(total, n). -/
theorem C4_redistribute_invariant (total n : Nat) (ht : 1 ≤ total) (hn : 1 ≤ n) :
    (redistribute total n).length = n ∧
    (redistribute total n).sum = max total n ∧
    ∀ x ∈ redistribute total n, 1 ≤ x :=
  ⟨redistribute_length total n, redistribute_sum ht hn, redistribute_mem (Or.inl ht)⟩

/-- C4 witness: the invariant instantiated at total 7 over 3 units
(yielding durations 2, 2, 3) and checked concretely. -/
theorem C4_redistribute_invariant_witness :
    (1 ≤ 7 ∧ 1 ≤ 3) ∧
    ((redistribute 7 3).length = 3 ∧
      (redistribute 7 3).sum = max 7 3 ∧
      ∀ x ∈ redistribute 7 3, 1 ≤ x) :=
  ⟨by decide, C4_redistribute_invariant 7 3 (by decide) (by decide)⟩

/-! Helper lemmas about the exploded per-character durations. -/

theorem expandBlock_mem_pos {d : Nat} {seg : Str} :
    ∀ p ∈ expandBlock d seg, 1 ≤ p.1 := by
  intro p hp
  match seg with
  | [] => simp [expandBlock] at hp
  | [c] =>
    simp only [expandBlock, List.mem_cons, List.not_mem_nil, or_false] at hp
    subst hp
    simp only []
    omega
  | c1 :: c2 :: rest =>
    simp only [expandBlock] at hp
    rcases p with ⟨x, c⟩
    have hm := List.of_mem_zip hp
    exact redistribute_mem (Or.inr (by simp only [List.length_cons]; omega)) x hm.1

theorem expandAll_mem_pos {bs : List (Nat × Str)} :
    ∀ p ∈ expandAll bs, 1 ≤ p.1 := by
  intro p hp
  induction bs with
  | nil => simp [expandAll] at hp
  | cons b rest ih =>
    simp only [expandAll, List.mem_append] at hp
    rcases hp with hp | hp
    · exact expandBlock_mem_pos p hp
    · exact ih hp

theorem parse_k_blocks_pos {t : Str} : ∀ p ∈ parse_k_blocks t, 1 ≤ p.1 :=
  fun p hp => expandAll_mem_pos p hp

theorem zip_map_clamp {l : List Nat} {r : Str} (hpos : ∀ x ∈ l, 1 ≤ x) :
    ((l.zip r).map fun p => (max 1 p.1, p.2)) = l.zip r := by
  induction l generalizing r with
  | nil => simp
  | cons x xs ih =>
    cases r with
    | nil => simp
    | cons c cs =>
      have hx : max 1 x = x := by
        have := hpos x (by simp)
        omega
      simp only [List.zip_cons_cons, List.map_cons, hx]
      rw [ih fun y hy => hpos y (by simp [hy])]

/-- C2: when the original tagged text explodes to a non-empty per-character
duration list whose length equals the character count of the (canonical,
already stripped) new lyric line, build_kara_from_lyrics reuses exactly the
original durations positionally, pairing the i-th duration with the i-th new
character, regardless of the text content. -/
theorem C2_exact_fidelity (new_line orig_text : Str) (fallback_cs : Nat)
    (hcanon : pyStrip new_line = new_line)
    (hne : parse_k_blocks orig_text ≠ [])
    (hlen : (parse_k_blocks orig_text).length = new_line.length) :
    (buildKaraParts new_line orig_text fallback_cs).map Prod.fst =
      (parse_k_blocks orig_text).map Prod.fst ∧
    (buildKaraParts new_line orig_text fallback_cs).map Prod.snd = new_line := by
  have hnl : ¬new_line = [] := by
    intro h0
    rw [h0] at hlen
    simp only [List.length_nil] at hlen
    exact hne (List.length_eq_zero.mp hlen)
  have hzip : buildKaraParts new_line orig_text fallback_cs =
      ((parse_k_blocks orig_text).map Prod.fst).zip new_line := by
    unfold buildKaraParts
    rw [hcanon]
    rw [if_neg hnl, if_pos ⟨hne, hlen⟩]
    exact zip_map_clamp fun x hx => by
      rcases List.mem_map.mp hx with ⟨p, hp, rfl⟩
      exact parse_k_blocks_pos p hp
  have hlen2 : ((parse_k_blocks orig_text).map Prod.fst).length = new_line.length := by
    simpa using hlen
  constructor
  · rw [hzip, List.map_fst_zip _ _ (le_of_eq hlen2)]
  · rw [hzip, List.map_snd_zip _ _ (ge_of_eq hlen2)]

/-- C2 witness: the exact-fidelity mapping checked on the tagged text
made of a 5-centisecond tag followed by the run "ab" (exploding to
durations 2 and 3) and the two-character replacement line "xy". -/
theorem C2_exact_fidelity_witness :
    (pyStrip ['x', 'y'] = ['x', 'y'] ∧
      parse_k_blocks (ktag 5 ++ ['a', 'b']) ≠ [] ∧
      (parse_k_blocks (ktag 5 ++ ['a', 'b'])).length = (['x', 'y'] : Str).length) ∧
    ((buildKaraParts ['x', 'y'] (ktag 5 ++ ['a', 'b']) 9).map Prod.fst =
        (parse_k_blocks (ktag 5 ++ ['a', 'b'])).map Prod.fst ∧
      (buildKaraParts ['x', 'y'] (ktag 5 ++ ['a', 'b']) 9).map Prod.snd = ['x', 'y']) :=
  ⟨⟨by decide, by decide, by decide⟩,
    C2_exact_fidelity ['x', 'y'] (ktag 5 ++ ['a', 'b']) 9 (by decide) (by decide) (by decide)⟩

theorem expandBlock_sum {d : Nat} {seg : Str} (hne : seg ≠ []) (hd : seg.length ≤ d) :
    ((expandBlock d seg).map Prod.fst).sum = d := by
  match seg with
  | [] => exact absurd rfl hne
  | [c] =>
    simp only [List.length_cons, List.length_nil] at hd
    simp only [expandBlock, List.map_cons, List.map_nil, List.sum_cons, List.sum_nil]
    omega
  | c1 :: c2 :: rest =>
    have hn : 2 ≤ (c1 :: c2 :: rest).length := by
      simp only [List.length_cons]
      omega
    simp only [expandBlock]
    rw [List.map_fst_zip _ _ (le_of_eq (redistribute_length _ _))]
    rw [redistribute_sum (by omega) (by omega)]
    omega

theorem expandAll_sum {bs : List (Nat × Str)}
    (h : ∀ b ∈ bs, b.2 ≠ [] ∧ b.2.length ≤ b.1) :
    ((expandAll bs).map Prod.fst).sum = (bs.map Prod.fst).sum := by
  induction bs with
  | nil => simp [expandAll]
  | cons b rest ih =>
    simp only [expandAll, List.map_append, List.sum_append, List.map_cons, List.sum_cons]
    rw [expandBlock_sum (h b (by simp)).1 (h b (by simp)).2,
      ih fun x hx => h x (by simp [hx])]

/-- C3 counterexample: on the tagged text made of a 1-centisecond tag
followed by the two-character run "ab", exploding yields the clamped
per-character durations 1 and 1 (sum 2), while the inline tag total with
fallback 0 is 1 — the sums differ, refuting the claim as stated. -/
theorem C3_counterexample :
    ((parse_k_blocks (ktag 1 ++ ['a', 'b'])).map Prod.fst).sum = 2 ∧
    extract_total_k (ktag 1 ++ ['a', 'b']) 0 = 1 ∧
    ((parse_k_blocks (ktag 1 ++ ['a', 'b'])).map Prod.fst).sum ≠
      extract_total_k (ktag 1 ++ ['a', 'b']) 0 := by
  decide

/-- C3 amended: for tagged text with at least one tag, where every tag is
followed by a non-empty character run and every tag's duration is at least
its run's character count (so the per-unit floor of 1 never inflates a
share), the exploded per-character durations sum exactly to the inline tag
total extracted with fallback 0. -/
theorem C3_sum_invariant (t : Str) (hne : kBlocks t ≠ [])
    (hruns : ∀ b ∈ kBlocks t, b.2 ≠ [] ∧ b.2.length ≤ b.1) :
    ((parse_k_blocks t).map Prod.fst).sum = extract_total_k t 0 := by
  unfold parse_k_blocks extract_total_k
  rw [expandAll_sum hruns]
  have hks : ¬(kBlocks t).map Prod.fst = [] := by simpa using hne
  have hpos : 0 < ((kBlocks t).map Prod.fst).sum := by
    cases hk : kBlocks t with
    | nil => exact absurd hk hne
    | cons b bs =>
      have hb := hruns b (by rw [hk]; simp)
      have h1 : 1 ≤ b.1 :=
        le_trans (List.length_pos.mpr hb.1) hb.2
      simp only [hk, List.map_cons, List.sum_cons]
      omega
  simp only [hks, if_false, hpos, if_true]

/-- C3 witness: the amended sum invariant checked on the tagged text with
tags 5 and 3 over the runs "ab" and "c" (exploding to 2, 3, 3; total 8). -/
theorem C3_sum_invariant_witness :
    (kBlocks (ktag 5 ++ ['a', 'b'] ++ ktag 3 ++ ['c']) ≠ [] ∧
      ∀ b ∈ kBlocks (ktag 5 ++ ['a', 'b'] ++ ktag 3 ++ ['c']),
        b.2 ≠ [] ∧ b.2.length ≤ b.1) ∧
    ((parse_k_blocks (ktag 5 ++ ['a', 'b'] ++ ktag 3 ++ ['c'])).map Prod.fst).sum =
      extract_total_k (ktag 5 ++ ['a', 'b'] ++ ktag 3 ++ ['c']) 0 :=
  ⟨⟨by decide, by decide⟩,
    C3_sum_invariant (ktag 5 ++ ['a', 'b'] ++ ktag 3 ++ ['c']) (by decide) (by decide)⟩

theorem zip_replicate_pair {v : Nat} (t : Str) :
    (List.replicate t.length v).zip t = t.map fun c => (v, c) := by
  induction t with
  | nil => simp
  | cons c cs ih => simp [List.replicate_succ, ih]

theorem redistribute_const {n : Nat} (hn : 1 ≤ n) :
    redistribute (30 * n) n = List.replicate n 30 := by
  unfold redistribute
  match n with
  | 0 => omega
  | 1 => norm_num
  | m2 + 2 =>
    have hn0 : ¬(m2 + 2 = 0) := by omega
    have hn1 : ¬(m2 + 2 = 1) := by omega
    simp only [hn0, hn1, if_false]
    have hdiv : 30 * (m2 + 2) / (m2 + 2) = 30 := by
      have hp : 0 < m2 + 2 := by omega
      exact Nat.mul_div_cancel 30 hp
    rw [hdiv]
    have h30 : max 1 30 = 30 := by norm_num
    rw [h30]
    have hlast : max 1 (30 * (m2 + 2) - 30 * (m2 + 2 - 1)) = 30 := by omega
    rw [hlast]
    have hm : m2 + 2 - 1 = m2 + 1 := rfl
    rw [hm]
    exact (List.replicate_succ' (m2 + 1) 30).symm

/-- C6 counterexample: with an empty word list and fallback text "ab" the
builder does not return the fallback untagged; it emits per-character tags
with the default 30 centiseconds per character. -/
theorem C6_counterexample :
    build_karaoke_text [] ['a', 'b'] = kpart 30 'a' ++ kpart 30 'b' ∧
    build_karaoke_text [] ['a', 'b'] ≠ ['a', 'b'] := by
  decide

/-- C6 amended: for every segment whose word list is empty, the karaoke
text builder tags every character of the trimmed fallback text with the
default duration of 30 centiseconds (the claimed untagged passthrough does
not exist; a blank fallback yields empty output). -/
theorem C6_no_words_default (fallback_text : Str) :
    buildKaraokeParts [] fallback_text = (pyStrip fallback_text).map fun c => (30, c) := by
  unfold buildKaraokeParts
  simp only [List.map_nil, List.sum_nil]
  by_cases ht : pyStrip fallback_text = []
  · simp [ht]
  · rw [if_neg ht]
    simp only [if_true]
    have hlen : 1 ≤ (pyStrip fallback_text).length := List.length_pos.mpr ht
    rw [redistribute_const hlen]
    exact zip_replicate_pair _

/-! Evaluation lemmas for the rational-valued primitives at integral
values (rational arithmetic does not evaluate inside the kernel, so closed
instances are reached by rewriting instead). -/

theorem qfloor_natCast (n : ℕ) : qfloor (n : ℚ) = n := by
  unfold qfloor
  rw [Rat.num_natCast, Rat.den_natCast]
  simp

theorem qtrunc_natCast (n : ℕ) : qtrunc (n : ℚ) = n := by
  unfold qtrunc
  rw [Rat.num_natCast, Rat.den_natCast]
  simp

theorem pyRound_natCast (n : ℕ) : pyRound (n : ℚ) = n := by
  unfold pyRound
  rw [qfloor_natCast]
  have h0 : (n : ℚ) - ((n : ℤ) : ℚ) = 0 := by
    push_cast
    ring
  rw [h0]
  norm_num

theorem seconds_to_centisecs_eval {q : ℚ} {k : ℕ} (h : q * 100 = (k : ℚ)) :
    seconds_to_centisecs q = max 1 k := by
  unfold seconds_to_centisecs
  rw [h, pyRound_natCast]
  omega

theorem qtrunc_eval {q : ℚ} {k : ℕ} (h : q * 100 = (k : ℚ)) :
    qtrunc (q * 100) = k := by
  rw [h]
  exact qtrunc_natCast k

theorem wordDurCs_pos (w : Word) : 1 ≤ wordDurCs w := by
  unfold wordDurCs
  have h : (1 : ℤ) ≤ max 1 (qtrunc ((w.endT - w.start) * 100)) := le_max_left _ _
  omega

theorem wordSum_pos {words : List Word} (hw : words ≠ []) :
    1 ≤ (words.map wordDurCs).sum := by
  cases words with
  | nil => exact absurd rfl hw
  | cons w ws =>
    have h := wordDurCs_pos w
    simp only [List.map_cons, List.sum_cons]
    omega

/-- C1 counterexample: for the single word spanning one second with text
"ab" and fallback text "ab", the builder emits one 50-centisecond tag per
character rather than the claimed single 100-centisecond tag followed by
the whole word. -/
theorem C1_counterexample :
    build_karaoke_text [⟨0, 1, ['a', 'b']⟩] ['a', 'b'] = kpart 50 'a' ++ kpart 50 'b' ∧
    build_karaoke_text [⟨0, 1, ['a', 'b']⟩] ['a', 'b'] ≠
      buildFromWordsClaim [⟨0, 1, ['a', 'b']⟩] := by
  have harith : ((⟨0, 1, ['a', 'b']⟩ : Word).endT - (⟨0, 1, ['a', 'b']⟩ : Word).start) * 100
      = (100 : ℚ) := by
    norm_num
  have hwd : wordDurCs ⟨0, 1, ['a', 'b']⟩ = 100 := by
    unfold wordDurCs
    rw [qtrunc_eval harith]
    decide
  have hsum : (List.map wordDurCs [(⟨0, 1, ['a', 'b']⟩ : Word)]).sum = 100 := by
    simp only [List.map_cons, List.map_nil, List.sum_cons, List.sum_nil, hwd]
    omega
  have hsc : seconds_to_centisecs ((⟨0, 1, ['a', 'b']⟩ : Word).endT -
      (⟨0, 1, ['a', 'b']⟩ : Word).start) = 100 := by
    rw [seconds_to_centisecs_eval harith]
    decide
  constructor
  · unfold build_karaoke_text buildKaraokeParts
    simp only [hsum]
    decide
  · unfold buildFromWordsClaim
    rw [hsc]
    unfold build_karaoke_text buildKaraokeParts
    simp only [hsum]
    decide

/-- C1 amended: for every non-empty word list and fallback text whose trim
is non-empty, the builder emits one duration tag per character of the
trimmed fallback text (not per word): the tagged characters are exactly the
trimmed fallback in order, every duration is at least 1, and the durations
sum to max(total, characterCount) where total is the sum over the words of
max(1, trunc(100 * (word.end - word.start))). -/
theorem C1_per_character (words : List Word) (fallback_text : Str)
    (hw : words ≠ []) (ht : pyStrip fallback_text ≠ []) :
    (buildKaraokeParts words fallback_text).map Prod.snd = pyStrip fallback_text ∧
    ((buildKaraokeParts words fallback_text).map Prod.fst).sum =
      max ((words.map wordDurCs).sum) (pyStrip fallback_text).length ∧
    ∀ p ∈ buildKaraokeParts words fallback_text, 1 ≤ p.1 := by
  have htot : 1 ≤ (words.map wordDurCs).sum := wordSum_pos hw
  have hn0 : ¬((words.map wordDurCs).sum = 0) := by omega
  have hn : 1 ≤ (pyStrip fallback_text).length := List.length_pos.mpr ht
  have hparts : buildKaraokeParts words fallback_text =
      (redistribute ((words.map wordDurCs).sum) (pyStrip fallback_text).length).zip
        (pyStrip fallback_text) := by
    unfold buildKaraokeParts
    rw [if_neg ht]
    simp only [if_neg hn0]
  have hlen : (redistribute ((words.map wordDurCs).sum)
      (pyStrip fallback_text).length).length = (pyStrip fallback_text).length :=
    redistribute_length _ _
  refine ⟨?_, ?_, ?_⟩
  · rw [hparts, List.map_snd_zip _ _ (ge_of_eq hlen)]
  · rw [hparts, List.map_fst_zip _ _ (le_of_eq hlen)]
    exact redistribute_sum htot hn
  · intro p hp
    rw [hparts] at hp
    rcases p with ⟨x, c⟩
    exact redistribute_mem (Or.inl htot) x (List.of_mem_zip hp).1

/-- C1 witness: the amended per-character behaviour checked on the single
one-second word with text "ab" over the fallback text "ab". -/
theorem C1_per_character_witness :
    (([⟨0, 1, ['a', 'b']⟩] : List Word) ≠ [] ∧ pyStrip ['a', 'b'] ≠ []) ∧
    ((buildKaraokeParts [⟨0, 1, ['a', 'b']⟩] ['a', 'b']).map Prod.snd =
        pyStrip ['a', 'b'] ∧
      ((buildKaraokeParts [⟨0, 1, ['a', 'b']⟩] ['a', 'b']).map Prod.fst).sum =
        max (([⟨0, 1, ['a', 'b']⟩] : List Word).map wordDurCs).sum
          (pyStrip ['a', 'b']).length ∧
      ∀ p ∈ buildKaraokeParts [⟨0, 1, ['a', 'b']⟩] ['a', 'b'], 1 ≤ p.1) :=
  ⟨⟨by decide, by decide⟩,
    C1_per_character [⟨0, 1, ['a', 'b']⟩] ['a', 'b'] (by decide) (by decide)⟩

theorem filterMap_congr_mem {α β : Type} {l : List α} {f g : α → Option β}
    (h : ∀ a ∈ l, f a = g a) : l.filterMap f = l.filterMap g := by
  induction l with
  | nil => rfl
  | cons a t ih =>
    simp only [List.filterMap_cons, h a (by simp)]
    rw [ih fun x hx => h x (by simp [hx])]

/-- C5: the preview pass emits, for each adjacent pair (segment i, segment
i+1) in input order, exactly one preview event carrying segment i+1's plain
stripped text, spanning from segment i's start to max(segment i's end,
segment i+1's start), styled by the parity of i+1, and emits nothing for a
pair whose next text is empty or whose computed span is zero or negative. -/
theorem C5_preview_layout (segments : List Seg) :
    previewEvents segments =
      (List.range (segments.length - 1)).filterMap (previewSpecAt segments) := by
  unfold previewEvents
  refine filterMap_congr_mem ?_
  intro i hi
  have hi2 : i + 1 < segments.length := by
    have := List.mem_range.mp hi
    omega
  have hi1 : i < segments.length := by omega
  unfold emitPreview previewSpecAt
  rw [dif_pos hi2]
  rw [List.getD_eq_getElem _ _ hi1, List.getD_eq_getElem _ _ hi2]
  rfl

/-! Helper lemmas for the record codec. -/

theorem splitFirst_none {sep : Char} {s : Str} (h : splitFirst sep s = none) :
    sep ∉ s := by
  induction s with
  | nil => simp
  | cons c t ih =>
    simp only [splitFirst] at h
    split at h
    · simp at h
    · rename_i hne
      have ht : splitFirst sep t = none := by
        rcases hop : splitFirst sep t with _ | p
        · rfl
        · rw [hop] at h
          simp at h
      simp only [List.mem_cons]
      push_neg
      exact ⟨fun he => hne he.symm, ih ht⟩

theorem splitFirst_append {sep : Char} {a : Str} (b : Str) (h : sep ∉ a) :
    splitFirst sep (a ++ sep :: b) = some (a, b) := by
  induction a with
  | nil => simp [splitFirst]
  | cons c t ih =>
    simp only [List.mem_cons] at h
    push_neg at h
    have hcne : ¬(c = sep) := fun hce => h.1 hce.symm
    simp only [List.cons_append, splitFirst, if_neg hcne, List.append_eq]
    rw [ih h.2]
    rfl

theorem splitFirst_decomp {sep : Char} {s a r : Str}
    (h : splitFirst sep s = some (a, r)) : s = a ++ sep :: r ∧ sep ∉ a := by
  induction s generalizing a with
  | nil => simp [splitFirst] at h
  | cons c t ih =>
    simp only [splitFirst] at h
    split at h
    · rename_i hc
      subst hc
      simp only [Option.some.injEq, Prod.mk.injEq] at h
      rw [← h.1, ← h.2]
      simp
    · rename_i hne
      rcases hop : splitFirst sep t with _ | ⟨a2, r2⟩
      · rw [hop] at h
        exact Option.noConfusion h
      · rw [hop] at h
        simp only [Option.map_some', Option.some.injEq, Prod.mk.injEq] at h
        rcases h with ⟨h1, h2⟩
        subst h2
        have hd := ih (a := a2) (by rw [hop])
        constructor
        · rw [← h1]
          simp [hd.1]
        · rw [← h1]
          simp only [List.mem_cons]
          push_neg
          exact ⟨fun he => hne he.symm, hd.2⟩

theorem splitBounded_ne_nil {sep : Char} {b : Nat} {s : Str} :
    pySplitBounded sep b s ≠ [] := by
  match b with
  | 0 => simp [pySplitBounded]
  | b + 1 =>
    simp only [pySplitBounded]
    rcases h : splitFirst sep s with _ | ⟨a, rest⟩
    · simp
    · simp

theorem joinSep_cons {sep : Char} {x : Str} {xs : List Str} (h : xs ≠ []) :
    joinSep sep (x :: xs) = x ++ sep :: joinSep sep xs := by
  cases xs with
  | nil => exact absurd rfl h
  | cons y t => rfl

theorem joinSep_splitBounded (sep : Char) (b : Nat) (s : Str) :
    joinSep sep (pySplitBounded sep b s) = s := by
  induction b generalizing s with
  | zero => rfl
  | succ b ih =>
    simp only [pySplitBounded]
    rcases h : splitFirst sep s with _ | ⟨a, rest⟩
    · rfl
    · rw [joinSep_cons splitBounded_ne_nil, ih rest]
      exact (splitFirst_decomp h).1.symm

theorem splitBounded_length_le (sep : Char) (b : Nat) (s : Str) :
    (pySplitBounded sep b s).length ≤ b + 1 := by
  induction b generalizing s with
  | zero => simp [pySplitBounded]
  | succ b ih =>
    simp only [pySplitBounded]
    rcases h : splitFirst sep s with _ | ⟨a, rest⟩
    · simp
    · simp only [List.length_cons]
      have := ih rest
      omega

theorem countC_append (sep : Char) (a b : Str) :
    countC sep (a ++ b) = countC sep a + countC sep b := by
  induction a with
  | nil => simp [countC]
  | cons c t ih =>
    simp only [List.cons_append, countC, List.append_eq, ih]
    omega

theorem countC_eq_zero {sep : Char} {a : Str} (h : sep ∉ a) : countC sep a = 0 := by
  induction a with
  | nil => rfl
  | cons c t ih =>
    simp only [List.mem_cons] at h
    push_neg at h
    have hcne : ¬(c = sep) := fun hce => h.1 hce.symm
    simp only [countC, if_neg hcne, ih h.2]

theorem splitFirst_of_count (sep : Char) (s : Str) (h : 0 < countC sep s) :
    ∃ a rest, splitFirst sep s = some (a, rest) ∧
      countC sep rest = countC sep s - 1 := by
  rcases hop : splitFirst sep s with _ | ⟨a, rest⟩
  · have := countC_eq_zero (splitFirst_none hop)
    omega
  · refine ⟨a, rest, rfl, ?_⟩
    have hd := splitFirst_decomp hop
    have : countC sep s = countC sep a + countC sep (sep :: rest) := by
      rw [hd.1, countC_append]
    rw [countC_eq_zero hd.2] at this
    simp only [countC, eq_self_iff_true, if_true] at this
    omega

theorem splitBounded_length_of_count {sep : Char} {b : Nat} {s : Str}
    (h : b ≤ countC sep s) : (pySplitBounded sep b s).length = b + 1 := by
  induction b generalizing s with
  | zero => rfl
  | succ b ih =>
    obtain ⟨a, rest, hsp, hc⟩ := splitFirst_of_count sep s (by omega)
    simp only [pySplitBounded, hsp, List.length_cons]
    rw [ih (by omega)]

theorem splitBounded_getD_last {sep : Char} {b : Nat} {s : Str}
    (h : b ≤ countC sep s) :
    (pySplitBounded sep b s).getD b [] = afterDelims sep b s := by
  induction b generalizing s with
  | zero => rfl
  | succ b ih =>
    obtain ⟨a, rest, hsp, hc⟩ := splitFirst_of_count sep s (by omega)
    simp only [pySplitBounded, hsp, afterDelims, List.getD_cons_succ]
    exact ih (by omega)

theorem splitBounded_join_fields {sep : Char} :
    ∀ (fs : List Str) (lastF : Str), (∀ f ∈ fs, sep ∉ f) →
      pySplitBounded sep fs.length (joinSep sep (fs ++ [lastF])) = fs ++ [lastF] := by
  intro fs
  induction fs with
  | nil => intro lastF h; rfl
  | cons f t ih =>
    intro lastF h
    have hne : t ++ [lastF] ≠ [] := by simp
    simp only [List.cons_append, List.length_cons]
    rw [joinSep_cons hne]
    have hsf : splitFirst sep (f ++ sep :: joinSep sep (t ++ [lastF])) =
        some (f, joinSep sep (t ++ [lastF])) :=
      splitFirst_append _ (h f (by simp))
    simp only [pySplitBounded, hsf]
    rw [ih lastF fun x hx => h x (by simp [hx])]

theorem countC_joinSep_ge (sep : Char) :
    ∀ (l : List Str), l ≠ [] → l.length - 1 ≤ countC sep (joinSep sep l) := by
  intro l
  induction l with
  | nil => intro h; exact absurd rfl h
  | cons x t ih =>
    intro _
    cases t with
    | nil => simp
    | cons y r =>
      rw [joinSep_cons (by simp)]
      rw [countC_append]
      have := ih (by simp)
      simp only [countC, eq_self_iff_true, if_true, List.length_cons] at *
      omega

theorem splitBounded_length_le_count (sep : Char) (b : Nat) (s : Str) :
    (pySplitBounded sep b s).length ≤ countC sep s + 1 := by
  induction b generalizing s with
  | zero => simp [pySplitBounded]
  | succ b ih =>
    simp only [pySplitBounded]
    rcases hop : splitFirst sep s with _ | ⟨a, rest⟩
    · simp
    · have hd := splitFirst_decomp hop
      have hcnt : countC sep s = countC sep rest + 1 := by
        rw [hd.1, countC_append, countC_eq_zero hd.2]
        simp only [countC, eq_self_iff_true, if_true]
        omega
      simp only [List.length_cons]
      have := ih rest
      omega

theorem fieldsOf_mkRec {p : Str} {l : List Str} (h : l.length = 10) :
    fieldsOf (mkRec p l) = l := by
  rcases l with _ | ⟨a0, l⟩
  · simp at h
  rcases l with _ | ⟨a1, l⟩
  · simp at h
  rcases l with _ | ⟨a2, l⟩
  · simp at h
  rcases l with _ | ⟨a3, l⟩
  · simp at h
  rcases l with _ | ⟨a4, l⟩
  · simp at h
  rcases l with _ | ⟨a5, l⟩
  · simp at h
  rcases l with _ | ⟨a6, l⟩
  · simp at h
  rcases l with _ | ⟨a7, l⟩
  · simp at h
  rcases l with _ | ⟨a8, l⟩
  · simp at h
  rcases l with _ | ⟨a9, l⟩
  · simp at h
  have hl : l = [] := by
    simp only [List.length_cons] at h
    exact List.length_eq_zero.mp (by omega)
  subst hl
  rfl

theorem padTo10_of_len10 {l : List Str} (h : l.length = 10) : padTo10 l = l := by
  simp [padTo10, h]

theorem padTo10_length {l : List Str} (h : l.length ≤ 10) : (padTo10 l).length = 10 := by
  simp only [padTo10, List.length_append, List.length_replicate]
  omega

theorem mkRec_text (p : Str) (l : List Str) : (mkRec p l).text = l.getD 9 [] := rfl

theorem padTo10_getD9_nil {l : List Str} (h : l.length ≤ 9) :
    (padTo10 l).getD 9 [] = [] := by
  unfold padTo10
  rw [List.getD_append_right _ _ _ _ h]
  rw [List.getD_eq_getElem?_getD]
  exact List.getElem?_getD_replicate_default_eq _ _ _

/-- C9: for every input line made of a colon-free record-type part, a colon
and a remainder, the parser succeeds, keeps the record-type part, splits
the stripped remainder into at most ten fields with everything after the
ninth delimiter kept verbatim (embedded delimiters included) as the text
field, and fills missing trailing fields with empty strings. -/
theorem C9_bounded_split (p rest : Str) (hp : ':' ∉ p) :
    ∃ r, split_dialogue_fields (p ++ ':' :: rest) = some r ∧
      r.pfx = p ∧
      fieldsOf r = padTo10 (pySplitBounded ',' 9 (pyStrip rest)) ∧
      (pySplitBounded ',' 9 (pyStrip rest)).length ≤ 10 ∧
      (9 ≤ countC ',' (pyStrip rest) → r.text = afterDelims ',' 9 (pyStrip rest)) ∧
      (countC ',' (pyStrip rest) < 9 → r.text = []) := by
  have hsf : splitFirst ':' (p ++ ':' :: rest) = some (p, rest) :=
    splitFirst_append rest hp
  have hle : (pySplitBounded ',' 9 (pyStrip rest)).length ≤ 10 :=
    splitBounded_length_le ',' 9 (pyStrip rest)
  refine ⟨mkRec p (padTo10 (pySplitBounded ',' 9 (pyStrip rest))), ?_, rfl, ?_, hle, ?_, ?_⟩
  · unfold split_dialogue_fields
    rw [hsf]
  · exact fieldsOf_mkRec (padTo10_length hle)
  · intro hc
    rw [mkRec_text, padTo10_of_len10 (splitBounded_length_of_count hc)]
    exact splitBounded_getD_last hc
  · intro hc
    rw [mkRec_text]
    have hlen : (pySplitBounded ',' 9 (pyStrip rest)).length ≤ 9 := by
      have := splitBounded_length_le_count ',' 9 (pyStrip rest)
      omega
    exact padTo10_getD9_nil hlen

/-- C9 witness: the parser applied to a line whose text field carries two
embedded commas and to nothing after the ninth delimiter but a short tail,
checked concretely through the bounded-split characterization. -/
theorem C9_bounded_split_witness :
    (':' ∉ ("Dialogue".toList : Str)) ∧
    (∃ r, split_dialogue_fields ("Dialogue".toList ++ ':' ::
        " 0,1,2,Style,,0,0,0,,text,with,commas".toList) = some r ∧
      r.pfx = "Dialogue".toList ∧
      fieldsOf r = padTo10 (pySplitBounded ',' 9
        (pyStrip " 0,1,2,Style,,0,0,0,,text,with,commas".toList)) ∧
      (pySplitBounded ',' 9
        (pyStrip " 0,1,2,Style,,0,0,0,,text,with,commas".toList)).length ≤ 10 ∧
      (9 ≤ countC ',' (pyStrip " 0,1,2,Style,,0,0,0,,text,with,commas".toList) →
        r.text = afterDelims ',' 9
          (pyStrip " 0,1,2,Style,,0,0,0,,text,with,commas".toList)) ∧
      (countC ',' (pyStrip " 0,1,2,Style,,0,0,0,,text,with,commas".toList) < 9 →
        r.text = [])) :=
  ⟨by decide, C9_bounded_split "Dialogue".toList
    " 0,1,2,Style,,0,0,0,,text,with,commas".toList (by decide)⟩

theorem pyLStrip_cons_space (J : Str) : pyLStrip (' ' :: J) = pyLStrip J := by
  have h : isPySpace ' ' = true := rfl
  simp [pyLStrip, List.dropWhile_cons, h]

theorem fieldsOf_length (r : DlgRec) : (fieldsOf r).length = 10 := rfl

theorem joinSep_count9 (r : DlgRec) :
    9 ≤ countC ',' (joinSep ',' (fieldsOf r)) := by
  have h := countC_joinSep_ge ',' (fieldsOf r) (by simp [fieldsOf])
  rw [fieldsOf_length] at h
  omega

/-- C7: the record codec's round-trip laws.  For a well-formed record
(colon-free record-type part, no leading or trailing whitespace on the
joined field list), serialize-parse-serialize equals serialize; with
additionally no comma in any of the first nine fields, parse inverts
serialize exactly. -/
theorem C7_round_trip (r : DlgRec) :
    (wellFormedRec r →
      ∃ r2, split_dialogue_fields (rebuild_dialogue r) = some r2 ∧
        rebuild_dialogue r2 = rebuild_dialogue r) ∧
    (noDelimAnomalies r → split_dialogue_fields (rebuild_dialogue r) = some r) := by
  have hsfgen : ∀ h1 : ':' ∉ r.pfx,
      splitFirst ':' (rebuild_dialogue r) =
        some (r.pfx, ' ' :: joinSep ',' (fieldsOf r)) := by
    intro h1
    unfold rebuild_dialogue
    exact splitFirst_append _ h1
  have hstripgen : pyLStrip (joinSep ',' (fieldsOf r)) = joinSep ',' (fieldsOf r) →
      pyRStrip (joinSep ',' (fieldsOf r)) = joinSep ',' (fieldsOf r) →
      pyStrip (' ' :: joinSep ',' (fieldsOf r)) = joinSep ',' (fieldsOf r) := by
    intro hl hr
    unfold pyStrip
    rw [pyLStrip_cons_space, hl, hr]
  have hparse : ':' ∉ r.pfx →
      pyLStrip (joinSep ',' (fieldsOf r)) = joinSep ',' (fieldsOf r) →
      pyRStrip (joinSep ',' (fieldsOf r)) = joinSep ',' (fieldsOf r) →
      split_dialogue_fields (rebuild_dialogue r) =
        some (mkRec r.pfx (padTo10 (pySplitBounded ',' 9 (joinSep ',' (fieldsOf r))))) := by
    intro h1 hl hr
    unfold split_dialogue_fields
    rw [hsfgen h1]
    show some (mkRec r.pfx (padTo10 (pySplitBounded ',' 9
      (pyStrip (' ' :: joinSep ',' (fieldsOf r)))))) = _
    rw [hstripgen hl hr]
  constructor
  · rintro ⟨h1, hl, hr⟩
    have hlen : (pySplitBounded ',' 9 (joinSep ',' (fieldsOf r))).length = 10 :=
      splitBounded_length_of_count (joinSep_count9 r)
    refine ⟨mkRec r.pfx (padTo10 (pySplitBounded ',' 9 (joinSep ',' (fieldsOf r)))), ?_, ?_⟩
    · exact hparse h1 hl hr
    · unfold rebuild_dialogue
      rw [padTo10_of_len10 hlen, fieldsOf_mkRec hlen, joinSep_splitBounded]
      rfl
  · rintro ⟨⟨h1, hl, hr⟩, h9⟩
    rw [hparse h1 hl hr]
    have hfields : fieldsOf r =
        [r.layer, r.start, r.endT, r.style, r.name, r.marginL, r.marginR, r.marginV,
          r.effect] ++ [r.text] := rfl
    have hsplit : pySplitBounded ',' 9 (joinSep ',' (fieldsOf r)) = fieldsOf r := by
      rw [hfields]
      exact splitBounded_join_fields _ _ fun f hf => h9 f hf
    rw [hsplit, padTo10_of_len10 (fieldsOf_length r)]
    rfl

/-- C7 witness: both round-trip laws checked on a concrete record with a
comma inside the text field. -/
theorem C7_round_trip_witness :
    noDelimAnomalies ⟨"Dialogue".toList, "0".toList, "1".toList, "2".toList,
        "Style".toList, [], "0".toList, "0".toList, "0".toList, [],
        "hello, world".toList⟩ ∧
    split_dialogue_fields (rebuild_dialogue ⟨"Dialogue".toList, "0".toList,
        "1".toList, "2".toList, "Style".toList, [], "0".toList, "0".toList,
        "0".toList, [], "hello, world".toList⟩) =
      some ⟨"Dialogue".toList, "0".toList, "1".toList, "2".toList,
        "Style".toList, [], "0".toList, "0".toList, "0".toList, [],
        "hello, world".toList⟩ :=
  ⟨by decide, (C7_round_trip ⟨"Dialogue".toList, "0".toList, "1".toList,
      "2".toList, "Style".toList, [], "0".toList, "0".toList, "0".toList, [],
      "hello, world".toList⟩).2 (by decide)⟩

/-! Helper lemmas for the main pass of fix_ass_with_lyrics.py. -/

theorem docDialoguesFrom_mem {L : List Str} :
    ∀ {i k : Nat} {rec : DlgRec}, (k, rec) ∈ docDialoguesFrom i L →
      i ≤ k ∧ k - i < L.length ∧ isDialogueLine (L.getD (k - i) []) = true ∧
        split_dialogue_fields (L.getD (k - i) []) = some rec := by
  induction L with
  | nil => intro i k rec h; simp [docDialoguesFrom] at h
  | cons l rest ih =>
    intro i k rec h
    simp only [docDialoguesFrom, List.mem_append] at h
    rcases h with h | h
    · have hhead : isDialogueLine l = true ∧ split_dialogue_fields l = some rec ∧ k = i := by
        split at h
        · rename_i hd
          rcases hsp : split_dialogue_fields l with _ | d
          · rw [hsp] at h
            simp at h
          · rw [hsp] at h
            simp only [List.mem_cons, List.not_mem_nil, or_false, Prod.mk.injEq] at h
            exact ⟨hd, by simp [hsp, h.2], h.1⟩
        · simp at h
      rcases hhead with ⟨hd, hsp, rfl⟩
      refine ⟨le_refl _, ?_, ?_, ?_⟩
      · simp
      · simpa using hd
      · simpa using hsp
    · obtain ⟨h1, h2, h3, h4⟩ := ih h
      have hki : i < k := by omega
      have hsub : k - i = (k - (i + 1)) + 1 := by omega
      rw [hsub]
      refine ⟨by omega, ?_, ?_, ?_⟩
      · simp only [List.length_cons]
        omega
      · simpa using h3
      · simpa using h4

theorem docDialoguesFrom_keys_lt {L : List Str} :
    ∀ {i : Nat}, ((docDialoguesFrom i L).map Prod.fst).Pairwise (· < ·) := by
  induction L with
  | nil => intro i; simp [docDialoguesFrom]
  | cons l rest ih =>
    intro i
    simp only [docDialoguesFrom]
    have hblock : ∀ pre : List (Nat × DlgRec),
        (pre = [] ∨ ∃ d, pre = [(i, d)]) →
        ((pre ++ docDialoguesFrom (i + 1) rest).map Prod.fst).Pairwise (· < ·) := by
      intro pre hpre
      rcases hpre with rfl | ⟨d, rfl⟩
      · simpa using ih
      · simp only [List.cons_append, List.nil_append, List.map_cons, List.pairwise_cons]
        refine ⟨?_, ih⟩
        intro k hk
        rcases List.mem_map.mp hk with ⟨⟨k2, r2⟩, hmem, rfl⟩
        have := (docDialoguesFrom_mem hmem).1
        omega
    apply hblock
    split
    · rcases hsp : split_dialogue_fields l with _ | d
      · exact Or.inl rfl
      · exact Or.inr ⟨d, rfl⟩
    · exact Or.inl rfl

theorem docDialoguesFrom_mem_of {L : List Str} :
    ∀ {i j : Nat} {rec : DlgRec}, j < L.length →
      isDialogueLine (L.getD j []) = true →
      split_dialogue_fields (L.getD j []) = some rec →
      (i + j, rec) ∈ docDialoguesFrom i L := by
  induction L with
  | nil => intro i j rec hj; simp at hj
  | cons l rest ih =>
    intro i j rec hj hd hsp
    simp only [docDialoguesFrom, List.mem_append]
    cases j with
    | zero =>
      left
      simp only [List.getD_cons_zero] at hd hsp
      rw [if_pos hd, hsp]
      simp
    | succ j2 =>
      right
      have := ih (i := i + 1) (by simpa using Nat.lt_of_succ_lt_succ hj)
        (by simpa using hd) (by simpa using hsp)
      have harith : i + (j2 + 1) = i + 1 + j2 := by omega
      rw [harith]
      exact this

theorem lookupIdx_eq_some_of_mem {l : List (Nat × DlgRec)} {q : Nat × DlgRec}
    (hnd : (l.map Prod.fst).Pairwise (· ≠ ·)) (hq : q ∈ l) :
    lookupIdx q.1 l = some q.2 := by
  induction l with
  | nil => simp at hq
  | cons x t ih =>
    simp only [List.map_cons, List.pairwise_cons] at hnd
    rcases List.mem_cons.mp hq with rfl | hq2
    · simp [lookupIdx]
    · have hne : ¬(x.1 = q.1) := by
        intro he
        exact hnd.1 q.1 (by
          rw [← he]
          exact (by
            have : q.1 ∈ t.map Prod.fst := List.mem_map.mpr ⟨q, hq2, rfl⟩
            rw [he]
            exact this)) (by rw [he])
      simp only [lookupIdx, if_neg hne]
      exact ih hnd.2 hq2

theorem lookupIdx_eq_none {l : List (Nat × DlgRec)} {k : Nat}
    (h : k ∉ l.map Prod.fst) : lookupIdx k l = none := by
  induction l with
  | nil => rfl
  | cons x t ih =>
    simp only [List.map_cons, List.mem_cons] at h
    push_neg at h
    have hne : ¬(x.1 = k) := fun he => h.1 he.symm
    simp only [lookupIdx, if_neg hne]
    exact ih h.2

theorem lookupIdx_mem {l : List (Nat × DlgRec)} {k : Nat}
    (h : k ∈ l.map Prod.fst) : ∃ d, lookupIdx k l = some d ∧ (k, d) ∈ l := by
  induction l with
  | nil => simp at h
  | cons x t ih =>
    by_cases he : x.1 = k
    · subst he
      exact ⟨x.2, by simp [lookupIdx], List.mem_cons_self x t⟩
    · simp only [List.map_cons, List.mem_cons] at h
      rcases h with h | h
      · exact absurd h.symm he
      · obtain ⟨d, hd1, hd2⟩ := ih h
        exact ⟨d, by simp [lookupIdx, if_neg he, hd1], by right; exact hd2⟩

theorem patchLinesFrom_length (u : List (Nat × DlgRec)) :
    ∀ (i : Nat) (L : List Str), (patchLinesFrom u i L).length = L.length := by
  intro i L
  induction L generalizing i with
  | nil => rfl
  | cons l rest ih =>
    simp only [patchLinesFrom, List.length_cons, ih]

theorem patchLinesFrom_getD_some {u : List (Nat × DlgRec)} {d : DlgRec} :
    ∀ {i j : Nat} {L : List Str}, j < L.length → lookupIdx (i + j) u = some d →
      (patchLinesFrom u i L).getD j [] = rebuild_dialogue d ++ ['\n'] := by
  intro i j L
  induction L generalizing i j with
  | nil => intro hj; simp at hj
  | cons l rest ih =>
    intro hj hl
    cases j with
    | zero =>
      simp only [Nat.add_zero] at hl
      simp only [patchLinesFrom, hl, List.getD_cons_zero]
    | succ j2 =>
      simp only [patchLinesFrom, List.getD_cons_succ]
      exact ih (by simpa using Nat.lt_of_succ_lt_succ hj)
        (by rw [show i + 1 + j2 = i + (j2 + 1) by omega]; exact hl)

theorem patchLinesFrom_getD_none {u : List (Nat × DlgRec)} :
    ∀ {i j : Nat} {L : List Str}, j < L.length → lookupIdx (i + j) u = none →
      (patchLinesFrom u i L).getD j [] = L.getD j [] := by
  intro i j L
  induction L generalizing i j with
  | nil => intro hj; simp at hj
  | cons l rest ih =>
    intro hj hl
    cases j with
    | zero =>
      simp only [Nat.add_zero] at hl
      simp only [patchLinesFrom, hl, List.getD_cons_zero]
    | succ j2 =>
      simp only [patchLinesFrom, List.getD_cons_succ]
      exact ih (by simpa using Nat.lt_of_succ_lt_succ hj)
        (by rw [show i + 1 + j2 = i + (j2 + 1) by omega]; exact hl)

theorem startsWith_decomp {p s : Str} (h : startsWith p s = true) :
    ∃ t, s = p ++ t := by
  induction p generalizing s with
  | nil => exact ⟨s, rfl⟩
  | cons c q ih =>
    cases s with
    | nil => simp [startsWith] at h
    | cons c2 s2 =>
      simp only [startsWith, Bool.and_eq_true, decide_eq_true_eq] at h
      obtain ⟨t, ht⟩ := ih h.2
      exact ⟨t, by rw [h.1, ht]; rfl⟩

theorem mem_of_mem_dropWhile {c : Char} {p : Char → Bool} :
    ∀ {l : Str}, c ∈ l.dropWhile p → c ∈ l := by
  intro l
  induction l with
  | nil => intro h; simpa using h
  | cons x t ih =>
    intro h
    by_cases hx : p x
    · rw [List.dropWhile_cons_of_pos hx] at h
      exact List.mem_cons_of_mem _ (ih h)
    · rw [List.dropWhile_cons_of_neg hx] at h
      exact h

theorem split_of_isDialogueLine {l : Str} (h : isDialogueLine l = true) :
    ∃ rec, split_dialogue_fields l = some rec := by
  unfold isDialogueLine at h
  obtain ⟨t, ht⟩ := startsWith_decomp h
  have hcolon : ':' ∈ l := by
    have h1 : ':' ∈ pyLStrip l := by
      rw [ht]
      exact List.mem_append.mpr (Or.inl (by decide))
    exact mem_of_mem_dropWhile h1
  rcases hop : splitFirst ':' l with _ | ⟨a, b⟩
  · exact absurd hcolon (splitFirst_none hop)
  · exact ⟨_, by unfold split_dialogue_fields; rw [hop]⟩

theorem mapM_retag_ok {l : List ((Nat × DlgRec) × Str)}
    (h : ∀ q ∈ l, ∃ b, retagOne q = Except.ok b) :
    ∃ r, l.mapM retagOne = Except.ok r ∧
      List.Forall₂ (fun q b => retagOne q = Except.ok b) l r := by
  induction l with
  | nil => exact ⟨[], rfl, List.Forall₂.nil⟩
  | cons q t ih =>
    obtain ⟨b, hb⟩ := h q (by simp)
    obtain ⟨r, hr, hf⟩ := ih fun x hx => h x (by simp [hx])
    refine ⟨b :: r, ?_, List.Forall₂.cons hb hf⟩
    rw [List.mapM_cons, hb, hr]
    rfl

theorem forall2_mem_left {P : (Nat × DlgRec) × Str → Nat × DlgRec → Prop}
    {l : List ((Nat × DlgRec) × Str)} {r : List (Nat × DlgRec)}
    (hf : List.Forall₂ P l r) : ∀ a ∈ l, ∃ b ∈ r, P a b := by
  induction hf with
  | nil => intro a ha; simp at ha
  | cons hab _ ih =>
    intro a ha
    rcases List.mem_cons.mp ha with rfl | ha2
    · exact ⟨_, by simp, hab⟩
    · obtain ⟨b, hb1, hb2⟩ := ih a ha2
      exact ⟨b, by simp [hb1], hb2⟩

theorem forall2_mem_right {P : (Nat × DlgRec) × Str → Nat × DlgRec → Prop}
    {l : List ((Nat × DlgRec) × Str)} {r : List (Nat × DlgRec)}
    (hf : List.Forall₂ P l r) : ∀ b ∈ r, ∃ a ∈ l, P a b := by
  induction hf with
  | nil => intro b hb; simp at hb
  | cons hab _ ih =>
    intro b hb
    rcases List.mem_cons.mp hb with rfl | hb2
    · exact ⟨_, by simp, hab⟩
    · obtain ⟨a, ha1, ha2⟩ := ih b hb2
      exact ⟨a, by simp [ha1], ha2⟩

theorem forall2_map_eq {P : (Nat × DlgRec) × Str → Nat × DlgRec → Prop}
    {l : List ((Nat × DlgRec) × Str)} {r : List (Nat × DlgRec)}
    (hf : List.Forall₂ P l r) (f : (Nat × DlgRec) × Str → Nat)
    (g : Nat × DlgRec → Nat) (h : ∀ a b, P a b → f a = g b) :
    l.map f = r.map g := by
  induction hf with
  | nil => rfl
  | cons hab _ ih =>
    simp only [List.map_cons, ih]
    rw [h _ _ hab]

theorem retagOne_ok_shape {q : (Nat × DlgRec) × Str} {b : Nat × DlgRec}
    (h : retagOne q = Except.ok b) :
    b.1 = q.1.1 ∧ ∃ t2, b.2 = { q.1.2 with text := t2 } := by
  unfold retagOne at h
  rcases h1 : ass_time_to_seconds q.1.2.start with _ | s <;>
    rcases h2 : ass_time_to_seconds q.1.2.endT with _ | e <;>
      rw [h1, h2] at h
  · simp at h
  · simp at h
  · simp at h
  · simp only [Except.ok.injEq] at h
    rw [← h]
    exact ⟨rfl, _, rfl⟩

theorem zip_map_fst_take {α β : Type} (l1 : List α) (l2 : List β) :
    (l1.zip l2).map Prod.fst = l1.take l2.length := by
  induction l1 generalizing l2 with
  | nil => simp
  | cons x t ih =>
    cases l2 with
    | nil => simp
    | cons y r => simp [List.zip_cons_cons, ih]

theorem take_eq_take_min {α : Type} (l : List α) (n : Nat) :
    l.take n = l.take (min l.length n) := by
  rcases Nat.le_total l.length n with h | h
  · rw [Nat.min_eq_left h, List.take_of_length_le h,
      List.take_of_length_le (le_refl _)]
  · rw [Nat.min_eq_right h]

theorem keys_filter_partition_nodup {l : List (Nat × DlgRec)}
    (P : Nat × DlgRec → Bool)
    (h : (l.map Prod.fst).Nodup) :
    (((l.filter P).map Prod.fst) ++
      ((l.filter fun x => !P x).map Prod.fst)).Nodup := by
  induction l with
  | nil => simp
  | cons x t ih =>
    simp only [List.map_cons, List.nodup_cons] at h
    have hsub : ∀ k, k ∈ ((t.filter P).map Prod.fst) ++
        ((t.filter fun x => !P x).map Prod.fst) → k ∈ t.map Prod.fst := by
      intro k hk
      rcases List.mem_append.mp hk with hk | hk <;>
        rcases List.mem_map.mp hk with ⟨e, he, rfl⟩ <;>
          exact List.mem_map.mpr ⟨e, List.mem_of_mem_filter he, rfl⟩
    by_cases hP : P x
    · rw [List.filter_cons_of_pos hP, List.filter_cons_of_neg (by simp [hP])]
      simp only [List.map_cons, List.cons_append, List.nodup_cons]
      exact ⟨fun hk => h.1 (hsub _ hk), ih h.2⟩
    · rw [List.filter_cons_of_neg (by simp [hP]),
        List.filter_cons_of_pos (by simp [hP])]
      simp only [List.map_cons]
      have hperm : ((t.filter P).map Prod.fst ++
          x.1 :: (t.filter fun x => !P x).map Prod.fst).Perm
          (x.1 :: ((t.filter P).map Prod.fst ++
            (t.filter fun x => !P x).map Prod.fst)) :=
        List.perm_middle
      rw [hperm.nodup_iff]
      simp only [List.nodup_cons]
      exact ⟨fun hk => h.1 (hsub _ hk), ih h.2⟩

theorem newSing_keys {L R : List Str} {newSing : List (Nat × DlgRec)}
    (hf : List.Forall₂ (fun q b => retagOne q = Except.ok b)
      ((singDialogues L).zip (procLyrics R)) newSing) :
    newSing.map Prod.fst =
      ((singDialogues L).take (procLyrics R).length).map Prod.fst := by
  have h1 := forall2_map_eq hf (fun q => q.1.1) Prod.fst
    (fun a b hab => ((retagOne_ok_shape hab).1).symm)
  rw [← h1, ← zip_map_fst_take (singDialogues L) (procLyrics R), List.map_map]
  rfl

theorem newPreviews_keys (L R : List Str) :
    (newPreviews L R).map Prod.fst =
      ((previewDialogues L).take ((procLyrics R).length - 1)).map Prod.fst := by
  unfold newPreviews
  rw [List.map_map, ← List.length_tail,
    ← zip_map_fst_take (previewDialogues L) (procLyrics R).tail, List.map_map]
  rfl

theorem map_take_append_drop {f : Nat × DlgRec → Nat}
    (m : Nat) (l : List (Nat × DlgRec)) :
    (l.take m).map f ++ (l.drop m).map f = l.map f := by
  rw [← List.map_append, List.take_append_drop]

theorem updatedRecs_keys {L R : List Str} {newSing : List (Nat × DlgRec)}
    (hf : List.Forall₂ (fun q b => retagOne q = Except.ok b)
      ((singDialogues L).zip (procLyrics R)) newSing) :
    (updatedRecs L R newSing).map Prod.fst =
      (singDialogues L).map Prod.fst ++ (previewDialogues L).map Prod.fst := by
  unfold updatedRecs
  simp only [List.map_append]
  rw [newSing_keys hf, newPreviews_keys L R]
  rw [take_eq_take_min (singDialogues L) (procLyrics R).length]
  rw [take_eq_take_min (previewDialogues L) ((procLyrics R).length - 1)]
  rw [map_take_append_drop, List.append_assoc, map_take_append_drop]

theorem docDialogues_keys_nodup (L : List Str) :
    ((docDialogues L).map Prod.fst).Nodup :=
  List.Pairwise.imp Nat.ne_of_lt docDialoguesFrom_keys_lt

theorem updatedRecs_keys_nodup {L R : List Str} {newSing : List (Nat × DlgRec)}
    (hf : List.Forall₂ (fun q b => retagOne q = Except.ok b)
      ((singDialogues L).zip (procLyrics R)) newSing) :
    ((updatedRecs L R newSing).map Prod.fst).Nodup := by
  rw [updatedRecs_keys hf]
  exact keys_filter_partition_nodup (fun p => hasK p.2.text) (docDialogues_keys_nodup L)

theorem fixAss_normal {L R : List Str} {newSing : List (Nat × DlgRec)}
    (hl : ¬procLyrics R = [])
    (hs : ¬singDialogues L = [])
    (hm : ((singDialogues L).zip (procLyrics R)).mapM retagOne = Except.ok newSing) :
    fixAss L R = Except.ok
      (patchLinesFrom (updatedRecs L R newSing) 0 L,
        if (procLyrics R).length ≠ (singDialogues L).length then
          [Diag.mismatch (procLyrics R).length (singDialogues L).length]
        else []) := by
  unfold fixAss
  rw [if_neg hl, if_neg hs]
  simp only [hm]

theorem updatedRecs_mem {L R : List Str} {newSing : List (Nat × DlgRec)}
    (hf : List.Forall₂ (fun q b => retagOne q = Except.ok b)
      ((singDialogues L).zip (procLyrics R)) newSing)
    {k : Nat} {d : DlgRec}
    (h : (k, d) ∈ updatedRecs L R newSing) :
    ∃ rec t2, (k, rec) ∈ docDialogues L ∧ d = { rec with text := t2 } := by
  unfold updatedRecs newPreviews at h
  simp only [List.mem_append] at h
  rcases h with ((h | h) | h) | h
  · obtain ⟨q, hq, hP⟩ := forall2_mem_right hf _ h
    obtain ⟨hk, t2, hd⟩ := retagOne_ok_shape hP
    refine ⟨q.1.2, t2, ?_, hd⟩
    have hq1 : q.1 ∈ singDialogues L := (List.of_mem_zip hq).1
    have hk2 : k = q.1.1 := hk
    rw [hk2]
    exact List.mem_of_mem_filter (by
      have : (q.1.1, q.1.2) = q.1 := rfl
      rw [this]
      exact hq1)
  · have hmem : (k, d) ∈ singDialogues L := List.drop_subset _ _ h
    exact ⟨d, d.text, List.mem_of_mem_filter hmem, rfl⟩
  · obtain ⟨q, hq, heq⟩ := List.mem_map.mp h
    have hq1 : q.1 ∈ previewDialogues L := (List.of_mem_zip hq).1
    have hk2 : q.1.1 = k := congrArg Prod.fst heq
    have hd2 : ({ q.1.2 with text := q.2 } : DlgRec) = d := congrArg Prod.snd heq
    refine ⟨q.1.2, q.2, ?_, hd2.symm⟩
    rw [← hk2]
    exact List.mem_of_mem_filter (by
      have he : (q.1.1, q.1.2) = q.1 := rfl
      rw [he]
      exact hq1)
  · have hmem : (k, d) ∈ previewDialogues L := List.drop_subset _ _ h
    exact ⟨d, d.text, List.mem_of_mem_filter hmem, rfl⟩

theorem mapM_retag_forall2 {l : List ((Nat × DlgRec) × Str)}
    {r : List (Nat × DlgRec)}
    (h : l.mapM retagOne = Except.ok r) :
    List.Forall₂ (fun q b => retagOne q = Except.ok b) l r := by
  induction l generalizing r with
  | nil =>
    have h2 : (Except.ok [] : Except FixErr (List (Nat × DlgRec))) = Except.ok r := h
    simp only [Except.ok.injEq] at h2
    rw [← h2]
    exact List.Forall₂.nil
  | cons q t ih =>
    rw [List.mapM_cons] at h
    rcases hq : retagOne q with e | b
    · rw [hq] at h
      exact Except.noConfusion h
    · rw [hq] at h
      rcases ht : t.mapM retagOne with e2 | r2
      · rw [ht] at h
        exact Except.noConfusion h
      · rw [ht] at h
        have h2 : (Except.ok (b :: r2) : Except FixErr (List (Nat × DlgRec))) =
            Except.ok r := h
        simp only [Except.ok.injEq] at h2
        rw [← h2]
        exact List.Forall₂.cons hq (ih ht)

theorem doc_mem_unique {L : List Str} {k : Nat} {r1 r2 : DlgRec}
    (h1 : (k, r1) ∈ docDialogues L) (h2 : (k, r2) ∈ docDialogues L) : r1 = r2 := by
  have e1 := (docDialoguesFrom_mem h1).2.2.2
  have e2 := (docDialoguesFrom_mem h2).2.2.2
  rw [e1] at e2
  exact (Option.some.injEq _ _).mp e2

theorem doc_mem_isDialogue {L : List Str} {k : Nat} {r1 : DlgRec}
    (h1 : (k, r1) ∈ docDialogues L) :
    k < L.length ∧ isDialogueLine (L.getD k []) = true ∧
      split_dialogue_fields (L.getD k []) = some r1 := by
  have e1 := docDialoguesFrom_mem h1
  rw [Nat.sub_zero] at e1
  exact ⟨e1.2.1, e1.2.2.1, e1.2.2.2⟩

theorem updatedRecs_key_mem {L R : List Str} {newSing : List (Nat × DlgRec)}
    (hf : List.Forall₂ (fun q b => retagOne q = Except.ok b)
      ((singDialogues L).zip (procLyrics R)) newSing)
    {k : Nat} (hk : k ∈ (updatedRecs L R newSing).map Prod.fst) :
    ∃ rec, (k, rec) ∈ docDialogues L := by
  obtain ⟨⟨k2, d⟩, hmem, hk2⟩ := List.mem_map.mp hk
  subst hk2
  obtain ⟨rec, t2, hrec, -⟩ := updatedRecs_mem hf hmem
  exact ⟨rec, hrec⟩

/-- C10: whenever the lyric-correction pass succeeds, it writes a document
of the same line count in which every non-Dialogue line is reproduced
byte-for-byte, and every Dialogue line is either left exactly as read (the
no-singing-lines early return) or re-serialized from its parsed record with
at most the text field replaced — layer, start, end, style, name, margins
and effect are serialized back unchanged. -/
theorem C10_frame_effect (L R out : List Str) (diags : List Diag)
    (h : fixAss L R = Except.ok (out, diags)) :
    out.length = L.length ∧
    ∀ j, j < L.length →
      (isDialogueLine (L.getD j []) = false → out.getD j [] = L.getD j []) ∧
      (isDialogueLine (L.getD j []) = true →
        ∃ rec t2, split_dialogue_fields (L.getD j []) = some rec ∧
          (out.getD j [] = L.getD j [] ∨
            out.getD j [] = rebuild_dialogue { rec with text := t2 } ++ ['\n'])) := by
  unfold fixAss at h
  by_cases hl : procLyrics R = []
  · rw [if_pos hl] at h
    exact Except.noConfusion h
  · rw [if_neg hl] at h
    by_cases hs : singDialogues L = []
    · rw [if_pos hs] at h
      have h2 : (Except.ok (L, [Diag.noSing]) :
          Except FixErr (List Str × List Diag)) = Except.ok (out, diags) := h
      simp only [Except.ok.injEq, Prod.mk.injEq] at h2
      obtain ⟨hout, -⟩ := h2
      subst hout
      refine ⟨rfl, fun j hj => ⟨fun _ => rfl, fun hd => ?_⟩⟩
      obtain ⟨rec, hsp⟩ := split_of_isDialogueLine hd
      exact ⟨rec, rec.text, hsp, Or.inl rfl⟩
    · rw [if_neg hs] at h
      rcases hm : ((singDialogues L).zip (procLyrics R)).mapM retagOne with e | newSing
      · rw [hm] at h
        exact Except.noConfusion h
      · rw [hm] at h
        have h2 : (Except.ok (patchLinesFrom (updatedRecs L R newSing) 0 L,
            if (procLyrics R).length ≠ (singDialogues L).length then
              [Diag.mismatch (procLyrics R).length (singDialogues L).length]
            else []) : Except FixErr (List Str × List Diag)) =
            Except.ok (out, diags) := h
        simp only [Except.ok.injEq, Prod.mk.injEq] at h2
        obtain ⟨hout, -⟩ := h2
        have hf := mapM_retag_forall2 hm
        refine ⟨?_, fun j hj => ⟨fun hnd => ?_, fun hd => ?_⟩⟩
        · rw [← hout]
          exact patchLinesFrom_length _ _ _
        · have hnone : lookupIdx j (updatedRecs L R newSing) = none := by
            apply lookupIdx_eq_none
            intro hk
            obtain ⟨rec, hrec⟩ := updatedRecs_key_mem hf hk
            rw [(doc_mem_isDialogue hrec).2.1] at hnd
            exact Bool.noConfusion hnd
          rw [← hout]
          exact patchLinesFrom_getD_none hj (by simpa using hnone)
        · obtain ⟨rec, hsp⟩ := split_of_isDialogueLine hd
          have hdocmem : (j, rec) ∈ docDialogues L := by
            have := docDialoguesFrom_mem_of (i := 0) hj hd hsp
            simpa using this
          have hkeymem : j ∈ (updatedRecs L R newSing).map Prod.fst := by
            rw [updatedRecs_keys hf]
            by_cases hK : hasK rec.text
            · exact List.mem_append.mpr (Or.inl (List.mem_map.mpr
                ⟨(j, rec), List.mem_filter.mpr ⟨hdocmem, hK⟩, rfl⟩))
            · exact List.mem_append.mpr (Or.inr (List.mem_map.mpr
                ⟨(j, rec), List.mem_filter.mpr ⟨hdocmem, by simp [hK]⟩, rfl⟩))
          obtain ⟨d, hlook, hmem⟩ := lookupIdx_mem hkeymem
          obtain ⟨rec2, t2, hrec2, hdval⟩ := updatedRecs_mem hf hmem
          have hrr : rec2 = rec := doc_mem_unique hrec2 hdocmem
          refine ⟨rec, t2, hsp, Or.inr ?_⟩
          rw [← hout]
          rw [patchLinesFrom_getD_some hj (by simpa using hlook)]
          rw [hdval, hrr]

/-- C8 counterexample: with one replacement lyric and a document whose only
Dialogue line carries no duration tag, the counts (1 lyric, 0 tagged
events) differ, yet the pass emits only the no-singing-lines warning and
not the claimed diagnostic stating both counts. -/
theorem C8_counterexample :
    fixAss ["Dialogue: 0,0:00:01.00,0:00:02.00,NextLeft,,0,0,0,,a".toList]
        ["x".toList] =
      Except.ok (["Dialogue: 0,0:00:01.00,0:00:02.00,NextLeft,,0,0,0,,a".toList],
        [Diag.noSing]) ∧
    (procLyrics ["x".toList]).length ≠
      (singDialogues
        ["Dialogue: 0,0:00:01.00,0:00:02.00,NextLeft,,0,0,0,,a".toList]).length ∧
    Diag.mismatch (procLyrics ["x".toList]).length
        (singDialogues
          ["Dialogue: 0,0:00:01.00,0:00:02.00,NextLeft,,0,0,0,,a".toList]).length ∉
      [Diag.noSing] :=
  ⟨rfl, by decide, by decide⟩

/-- C8 amended: when at least one replacement lyric and at least one tagged
event exist, their counts differ, and every paired tagged event's start and
end timestamps parse, the pass succeeds, emits exactly the diagnostic
stating both counts, rewrites only the paired prefix of the tagged events
(each paired event's line becomes its retagged record), and serializes
every tagged event beyond the prefix back with its text unmodified. -/
theorem C8_prefix_rewrite (L R : List Str)
    (hl : 1 ≤ (procLyrics R).length)
    (hs : 1 ≤ (singDialogues L).length)
    (hne : (procLyrics R).length ≠ (singDialogues L).length)
    (ht : ∀ q ∈ (singDialogues L).zip (procLyrics R),
      (ass_time_to_seconds q.1.2.start).isSome = true ∧
        (ass_time_to_seconds q.1.2.endT).isSome = true) :
    ∃ out, fixAss L R = Except.ok
        (out, [Diag.mismatch (procLyrics R).length (singDialogues L).length]) ∧
      out.length = L.length ∧
      (∀ q ∈ (singDialogues L).drop
          (min (singDialogues L).length (procLyrics R).length),
        out.getD q.1 [] = rebuild_dialogue q.2 ++ ['\n']) ∧
      (∀ q ∈ (singDialogues L).zip (procLyrics R),
        ∃ d2, retagOne q = Except.ok (q.1.1, d2) ∧
          out.getD q.1.1 [] = rebuild_dialogue d2 ++ ['\n']) := by
  have hlne : ¬procLyrics R = [] := by
    intro h0
    rw [h0] at hl
    simp at hl
  have hsne : ¬singDialogues L = [] := by
    intro h0
    rw [h0] at hs
    simp at hs
  have hok : ∀ q ∈ (singDialogues L).zip (procLyrics R),
      ∃ b, retagOne q = Except.ok b := by
    intro q hq
    obtain ⟨h1, h2⟩ := ht q hq
    unfold retagOne
    rcases ho1 : ass_time_to_seconds q.1.2.start with _ | s
    · rw [ho1] at h1
      simp at h1
    · rcases ho2 : ass_time_to_seconds q.1.2.endT with _ | e
      · rw [ho2] at h2
        simp at h2
      · exact ⟨_, rfl⟩
  obtain ⟨newSing, hm, hf⟩ := mapM_retag_ok hok
  have hfix := fixAss_normal hlne hsne hm
  rw [if_pos hne] at hfix
  have hnodup := updatedRecs_keys_nodup hf
  refine ⟨patchLinesFrom (updatedRecs L R newSing) 0 L, hfix,
    patchLinesFrom_length _ _ _, ?_, ?_⟩
  · intro q hq
    have hmem : q ∈ updatedRecs L R newSing := by
      unfold updatedRecs
      exact List.mem_append.mpr (Or.inl (List.mem_append.mpr (Or.inl
        (List.mem_append.mpr (Or.inr hq)))))
    have hlook := lookupIdx_eq_some_of_mem hnodup hmem
    have hkey : q.1 < L.length := by
      have hqsing : q ∈ singDialogues L := List.drop_subset _ _ hq
      have hdoc : q ∈ docDialogues L := List.mem_of_mem_filter hqsing
      exact (doc_mem_isDialogue hdoc).1
    exact patchLinesFrom_getD_some hkey (by simpa using hlook)
  · intro q hq
    obtain ⟨b, hb1, hb2⟩ := forall2_mem_left hf q hq
    obtain ⟨hbk, t2, hbd⟩ := retagOne_ok_shape hb2
    have hbeta : (b.1, b.2) = b := rfl
    refine ⟨b.2, ?_, ?_⟩
    · rw [← hbk, hbeta]
      exact hb2
    · have hmem : b ∈ updatedRecs L R newSing := by
        unfold updatedRecs
        exact List.mem_append.mpr (Or.inl (List.mem_append.mpr (Or.inl
          (List.mem_append.mpr (Or.inl hb1)))))
      have hlook := lookupIdx_eq_some_of_mem hnodup hmem
      have hkey : b.1 < L.length := by
        rw [hbk]
        have hqsing : q.1 ∈ singDialogues L := (List.of_mem_zip hq).1
        have hdoc : q.1 ∈ docDialogues L := List.mem_of_mem_filter hqsing
        exact (doc_mem_isDialogue hdoc).1
      rw [← hbk]
      exact patchLinesFrom_getD_some hkey (by simpa using hlook)

/-- C8 witness: the amended behaviour instantiated on a document with one
tagged Dialogue line and two replacement lyrics (counts 2 and 1 differ),
with parseable timestamps. -/
theorem C8_prefix_rewrite_witness :
    (1 ≤ (procLyrics ["x".toList, "y".toList]).length ∧
      1 ≤ (singDialogues
        ["Dialogue: 0,0:00:01.00,0:00:02.00,SingLeft,,0,0,0,,".toList ++
          kpart 100 'a']).length ∧
      (procLyrics ["x".toList, "y".toList]).length ≠
        (singDialogues
          ["Dialogue: 0,0:00:01.00,0:00:02.00,SingLeft,,0,0,0,,".toList ++
            kpart 100 'a']).length) ∧
    (∃ out, fixAss
        ["Dialogue: 0,0:00:01.00,0:00:02.00,SingLeft,,0,0,0,,".toList ++
          kpart 100 'a']
        ["x".toList, "y".toList] = Except.ok
        (out, [Diag.mismatch
          (procLyrics ["x".toList, "y".toList]).length
          (singDialogues
            ["Dialogue: 0,0:00:01.00,0:00:02.00,SingLeft,,0,0,0,,".toList ++
              kpart 100 'a']).length]) ∧
      out.length = (["Dialogue: 0,0:00:01.00,0:00:02.00,SingLeft,,0,0,0,,".toList ++
          kpart 100 'a'] : List Str).length ∧
      (∀ q ∈ (singDialogues
          ["Dialogue: 0,0:00:01.00,0:00:02.00,SingLeft,,0,0,0,,".toList ++
            kpart 100 'a']).drop
          (min (singDialogues
            ["Dialogue: 0,0:00:01.00,0:00:02.00,SingLeft,,0,0,0,,".toList ++
              kpart 100 'a']).length
            (procLyrics ["x".toList, "y".toList]).length),
        out.getD q.1 [] = rebuild_dialogue q.2 ++ ['\n']) ∧
      (∀ q ∈ (singDialogues
          ["Dialogue: 0,0:00:01.00,0:00:02.00,SingLeft,,0,0,0,,".toList ++
            kpart 100 'a']).zip (procLyrics ["x".toList, "y".toList]),
        ∃ d2, retagOne q = Except.ok (q.1.1, d2) ∧
          out.getD q.1.1 [] = rebuild_dialogue d2 ++ ['\n'])) :=
  ⟨⟨by decide, by decide, by decide⟩,
    C8_prefix_rewrite
      ["Dialogue: 0,0:00:01.00,0:00:02.00,SingLeft,,0,0,0,,".toList ++ kpart 100 'a']
      ["x".toList, "y".toList] (by decide) (by decide) (by decide) (by decide)⟩

/-- C10 witness: the frame condition instantiated on a concrete run (a
document with a section header and one untagged Dialogue line, so the pass
returns the document unmodified with the no-singing-lines warning). -/
theorem C10_frame_effect_witness :
    fixAss ["[Events]".toList,
        "Dialogue: 0,0:00:01.00,0:00:02.00,NextLeft,,0,0,0,,b".toList]
        ["z".toList] =
      Except.ok (["[Events]".toList,
        "Dialogue: 0,0:00:01.00,0:00:02.00,NextLeft,,0,0,0,,b".toList],
        [Diag.noSing]) ∧
    ((["[Events]".toList,
        "Dialogue: 0,0:00:01.00,0:00:02.00,NextLeft,,0,0,0,,b".toList] :
          List Str).length =
      (["[Events]".toList,
        "Dialogue: 0,0:00:01.00,0:00:02.00,NextLeft,,0,0,0,,b".toList] :
          List Str).length ∧
    ∀ j, j < (["[Events]".toList,
        "Dialogue: 0,0:00:01.00,0:00:02.00,NextLeft,,0,0,0,,b".toList] :
          List Str).length →
      (isDialogueLine ((["[Events]".toList,
          "Dialogue: 0,0:00:01.00,0:00:02.00,NextLeft,,0,0,0,,b".toList] :
            List Str).getD j []) = false →
        (["[Events]".toList,
          "Dialogue: 0,0:00:01.00,0:00:02.00,NextLeft,,0,0,0,,b".toList] :
            List Str).getD j [] =
          (["[Events]".toList,
            "Dialogue: 0,0:00:01.00,0:00:02.00,NextLeft,,0,0,0,,b".toList] :
              List Str).getD j []) ∧
      (isDialogueLine ((["[Events]".toList,
          "Dialogue: 0,0:00:01.00,0:00:02.00,NextLeft,,0,0,0,,b".toList] :
            List Str).getD j []) = true →
        ∃ rec t2, split_dialogue_fields ((["[Events]".toList,
            "Dialogue: 0,0:00:01.00,0:00:02.00,NextLeft,,0,0,0,,b".toList] :
              List Str).getD j []) = some rec ∧
          ((["[Events]".toList,
            "Dialogue: 0,0:00:01.00,0:00:02.00,NextLeft,,0,0,0,,b".toList] :
              List Str).getD j [] =
            (["[Events]".toList,
              "Dialogue: 0,0:00:01.00,0:00:02.00,NextLeft,,0,0,0,,b".toList] :
                List Str).getD j [] ∨
          (["[Events]".toList,
            "Dialogue: 0,0:00:01.00,0:00:02.00,NextLeft,,0,0,0,,b".toList] :
              List Str).getD j [] =
            rebuild_dialogue { rec with text := t2 } ++ ['\n']))) :=
  ⟨rfl, C10_frame_effect
    ["[Events]".toList, "Dialogue: 0,0:00:01.00,0:00:02.00,NextLeft,,0,0,0,,b".toList]
    ["z".toList]
    ["[Events]".toList, "Dialogue: 0,0:00:01.00,0:00:02.00,NextLeft,,0,0,0,,b".toList]
    [Diag.noSing] rfl⟩
